import Mathlib

/-!
Shallow embedding of the Wesolowski VDF scaffold (Rust sources:
`src/class_group.rs`, `src/crypto.rs`, `src/vdf.rs`).

Modelling conventions:
* `num_bigint::BigInt` is embedded as `Int`.  Rust's `/` and `%` on `BigInt`
  truncate toward zero, so they are embedded as `Int.tdiv` / `Int.tmod`.
  `BigInt`'s `>>` is an arithmetic (floor) shift, embedded as `Int.fdiv 2`
  for a one-bit shift.
* A Rust operation that can abort the process (division or remainder by
  zero, a failed `assert_eq!`) is embedded in `Option`: `none` is an abort.
  Unbounded Rust loops are embedded with explicit fuel; fuel exhaustion is
  also `none` (the fuels used are far beyond anything reachable).
* Byte strings (`&[u8]`, `Vec<u8>`) are embedded as `List Nat`, every entry
  the value of one byte.
-/

namespace VdfScaffold

/-- Truncated division as `num_bigint` performs it, aborting on a zero
divisor exactly where Rust would. -/
def tdivP (a b : Int) : Option Int :=
  if b = 0 then none else some (a.tdiv b)

/-- Truncated remainder as `num_bigint` performs it, aborting on a zero
divisor exactly where Rust would. -/
def tmodP (a b : Int) : Option Int :=
  if b = 0 then none else some (a.tmod b)

/-- `ClassGroupElement` from `src/class_group.rs`: a binary quadratic form
`(a, b, c)` carrying its stored discriminant. -/
structure ClassGroupElement where
  a : Int
  b : Int
  c : Int
  discriminant : Int
  deriving DecidableEq, Repr

/-- `ClassGroupElement::generator`: the form `(2, 1, (1 - D)/4·2)` (the `c`
component computed by the truncated division `(b*b - D) / (4*a)`). -/
def generatorElem (d : Int) : ClassGroupElement :=
  ⟨2, 1, (1 - d).tdiv 8, d⟩

/-- `ClassGroupElement::identity`: the form `(1, 1, (1 - D)/4)` (again via
the truncated division of the source). -/
def identityElem (d : Int) : ClassGroupElement :=
  ⟨1, 1, (1 - d).tdiv 4, d⟩

/-- `gcd` from `src/class_group.rs` (plain Euclid on truncated remainders;
the result keeps the sign of the last nonzero value).  The loop guard tests
`b ≠ 0` before dividing, so no abort is possible; fuel `|b| + 2` is enough
because `|a tmod b| < |b|` strictly decreases. -/
def gcdLoop : Nat → Int → Int → Option Int
  | 0, _, _ => none
  | fuel + 1, a, b => if b = 0 then some a else gcdLoop fuel b (a.tmod b)

/-- Entry point of the source `gcd`. -/
def gcdE (a b : Int) : Option Int :=
  gcdLoop (b.natAbs + 2) a b

/-- `extended_gcd` from `src/class_group.rs` (iterative; returns
`(g, x, y)` with `a*x + b*y = g`). -/
def egcdLoop : Nat → Int → Int → Int → Int → Int → Int → Option (Int × Int × Int)
  | 0, _, _, _, _, _, _ => none
  | fuel + 1, oldr, r, olds, s, oldt, t =>
    if r = 0 then some (oldr, olds, oldt)
    else
      let q := oldr.tdiv r
      egcdLoop fuel r (oldr - q * r) s (olds - q * s) t (oldt - q * t)

/-- Entry point of the source `extended_gcd`. -/
def extendedGcdE (a b : Int) : Option (Int × Int × Int) :=
  egcdLoop (b.natAbs + 2) a b 1 0 0 1

/-- One pass of the body of the `reduce` loop: the swap step, then the
normalize-`b` step (which divides by `2a` and is where Rust can abort),
returning the updated `(a, b, c)`. -/
def reduceBody (a b c : Int) : Option (Int × Int × Int) :=
  -- If a > c, swap a and c, and negate b
  let a1 := if a > c then c else a
  let c1 := if a > c then a else c
  let b1 := if a > c then -b else b
  -- If |b| > a, reduce b modulo 2a
  if |b1| > a1 then do
    let q ← tdivP (b1 + a1) (2 * a1)
    let b2 := b1 - 2 * q * a1
    let c2 := c1 - q * (b1 + q * a1)
    pure (a1, b2, c2)
  else
    pure (a1, b1, c1)

/-- The bounded `while steps < MAX_STEPS` loop of `reduce` (`MAX_STEPS =
1000`).  Exhausting the step budget leaves the form as-is, exactly like the
source, which then falls through to the discriminant fix-up. -/
def reduceLoop : Nat → Int → Int → Int → Option (Int × Int × Int)
  | 0, a, b, c => some (a, b, c)
  | fuel + 1, a, b, c => do
    let (a1, b1, c1) ← reduceBody a b c
    -- Check if we're done
    if |b1| ≤ a1 ∧ a1 ≤ c1 then
      -- If |b| = a or a = c, ensure b ≥ 0
      let b2 := if (|b1| = a1 ∨ a1 = c1) ∧ b1 < 0 then -b1 else b1
      pure (a1, b2, c1)
    else
      reduceLoop fuel a1 b1 c1

/-- `ClassGroupElement::reduce`: the bounded loop followed by the
discriminant re-check that recomputes `c` by truncated division when the
invariant fails. -/
def reduceE (x : ClassGroupElement) : Option ClassGroupElement := do
  let (a, b, c) ← reduceLoop 1000 x.a x.b x.c
  -- Verify the discriminant is preserved
  if b * b - 4 * a * c = x.discriminant then
    pure ⟨a, b, c, x.discriminant⟩
  else do
    -- Recalculate c to maintain discriminant
    let c2 ← tdivP (b * b - x.discriminant) (4 * a)
    pure ⟨a, b, c2, x.discriminant⟩

/-- `ClassGroupElement::compose`.  The `assert_eq!` on the discriminants is
an abort when they differ; the two `a == 1` short circuits return the other
operand's value; then the gcd-split composition of the source. -/
def composeE (x y : ClassGroupElement) : Option ClassGroupElement :=
  if x.discriminant ≠ y.discriminant then none
  else if x.a = 1 then some y
  else if y.a = 1 then some x
  else do
    let s := (x.b + y.b).tdiv 2
    let g0 ← gcdE x.a y.a
    let g ← gcdE g0 s
    if g = 1 then
      let a3 := x.a * y.a
      let b3 := x.b + 2 * y.a * ((y.b - x.b).tdiv 2)
      let c3 ← tdivP (b3 * b3 - x.discriminant) (4 * a3)
      reduceE ⟨a3, b3, c3, x.discriminant⟩
    else do
      let a1g ← tdivP x.a g
      let a2g ← tdivP y.a g
      let sg ← tdivP s g
      let (_, u, _) ← extendedGcdE a1g a2g
      let a3 := g * a1g * a2g
      let b1g ← tdivP x.b g
      let b3 := x.b + 2 * g * a2g * u * (sg - b1g)
      let c3 ← tdivP (b3 * b3 - x.discriminant) (4 * a3)
      reduceE ⟨a3, b3, c3, x.discriminant⟩

/-- `ClassGroupElement::square` = `self.compose(self)`. -/
def squareE (x : ClassGroupElement) : Option ClassGroupElement :=
  composeE x x

/-- The `while !exp.is_zero()` loop of `pow`.  One Rust iteration composes
`result` with the old `base` when the current bit is set, squares `base`,
then arithmetic-shifts `exp` right by one.  A negative `exp` never reaches
zero in Rust (the loop diverges), matching fuel exhaustion here. -/
def powLoop : Nat → ClassGroupElement → ClassGroupElement → Int → Option ClassGroupElement
  | 0, _, _, _ => none
  | fuel + 1, result, base, exp =>
    if exp = 0 then some result
    else do
      let result1 ← if exp.tmod 2 = 1 then composeE result base else pure result
      let base1 ← composeE base base
      powLoop fuel result1 base1 (exp.fdiv 2)

/-- `ClassGroupElement::pow` with its two early returns. -/
def powE (x : ClassGroupElement) (exp : Int) : Option ClassGroupElement :=
  if exp = 0 then some (identityElem x.discriminant)
  else if exp = 1 then some x
  else powLoop (exp.natAbs + 2) (identityElem x.discriminant) x exp

/-! Byte-level serialization (`serialize` / `deserialize` of
`src/class_group.rs`). -/

/-- Big-endian digits of `n` (no leading zeros; empty for `0`),
accumulator-style with fuel; `n + 1` fuel always suffices since the value
shrinks by a factor of 256 each step. -/
def natBytesAux : Nat → Nat → List Nat → List Nat
  | 0, _, acc => acc
  | fuel + 1, n, acc => if n = 0 then acc else natBytesAux fuel (n / 256) (n % 256 :: acc)

/-- `BigUint::to_bytes_be` as used through `BigInt::to_bytes_be`: big-endian
magnitude bytes, with `[0]` for zero. -/
def natBytesBE (n : Nat) : List Nat :=
  if n = 0 then [0] else natBytesAux (n + 1) n []

/-- `u32::from_be_bytes` / `BigInt::from_bytes_be` value of a big-endian
byte list. -/
def bytesToNatBE (bs : List Nat) : Nat :=
  bs.foldl (fun acc b => acc * 256 + b) 0

/-- `(len as u32).to_be_bytes()`: the length is truncated to 32 bits by the
`as` cast before being written big-endian. -/
def u32be (n : Nat) : List Nat :=
  [n / 2 ^ 24 % 256, n / 2 ^ 16 % 256, n / 2 ^ 8 % 256, n % 256]

/-- One length–sign–magnitude block of `serialize`. -/
def serializeInt (v : Int) : List Nat :=
  let mag := natBytesBE v.natAbs
  u32be (mag.length % 2 ^ 32) ++ (if v < 0 then 1 else 0) :: mag

/-- `ClassGroupElement::serialize`: the three blocks for `a`, `b`, `c`. -/
def serializeElem (x : ClassGroupElement) : List Nat :=
  serializeInt x.a ++ serializeInt x.b ++ serializeInt x.c

/-- `BigInt::from_bytes_be` with the sign decoded from the flag byte
(`1` means negative, anything else positive). -/
def intOfSignMag (flag : Nat) (mag : List Nat) : Int :=
  if flag = 1 then -(bytesToNatBE mag : Int) else (bytesToNatBE mag : Int)

/-- One length–sign–magnitude read of `deserialize`, with the three bounds
checks of the source; returns the value and the advanced offset. -/
def readIntBlock (bytes : List Nat) (off : Nat) : Option (Int × Nat) :=
  if off + 4 > bytes.length then none
  else
    let len := bytesToNatBE ((bytes.drop off).take 4)
    let off1 := off + 4
    if off1 + 1 > bytes.length then none
    else
      let flag := (bytes.drop off1).headD 0
      let off2 := off1 + 1
      if off2 + len > bytes.length then none
      else some (intOfSignMag flag ((bytes.drop off2).take len), off2 + len)

/-- `ClassGroupElement::deserialize`: the minimum-length check, then the
three blocks; the stored discriminant is taken from the argument. -/
def deserializeElem (bytes : List Nat) (d : Int) : Option ClassGroupElement :=
  if bytes.length < 15 then none
  else do
    let (a, off1) ← readIntBlock bytes 0
    let (b, off2) ← readIntBlock bytes off1
    let (c, _) ← readIntBlock bytes off2
    pure ⟨a, b, c, d⟩

/-! SHA-256 (the `sha2` crate used by `src/crypto.rs`), over byte lists. -/

/-- Truncation to a 32-bit word. -/
def w32 (n : Nat) : Nat := n % 4294967296

/-- Right rotation of a 32-bit word by `k` (0 < k < 32). -/
def rotr (k n : Nat) : Nat := n / 2 ^ k + n % 2 ^ k * 2 ^ (32 - k)

/-- SHA-256 small sigma 0. -/
def ssig0 (x : Nat) : Nat := (rotr 7 x) ^^^ (rotr 18 x) ^^^ (x / 2 ^ 3)

/-- SHA-256 small sigma 1. -/
def ssig1 (x : Nat) : Nat := (rotr 17 x) ^^^ (rotr 19 x) ^^^ (x / 2 ^ 10)

/-- SHA-256 big sigma 0. -/
def bsig0 (x : Nat) : Nat := (rotr 2 x) ^^^ (rotr 13 x) ^^^ (rotr 22 x)

/-- SHA-256 big sigma 1. -/
def bsig1 (x : Nat) : Nat := (rotr 6 x) ^^^ (rotr 11 x) ^^^ (rotr 25 x)

/-- SHA-256 choice function. -/
def shaCh (x y z : Nat) : Nat := (x &&& y) ^^^ ((x ^^^ 4294967295) &&& z)

/-- SHA-256 majority function. -/
def shaMaj (x y z : Nat) : Nat := (x &&& y) ^^^ (x &&& z) ^^^ (y &&& z)

/-- The 64 SHA-256 round constants. -/
def shaK : List Nat :=
  [1116352408, 1899447441, 3049323471, 3921009573, 961987163, 1508970993, 2453635748, 2870763221,
   3624381080, 310598401, 607225278, 1426881987, 1925078388, 2162078206, 2614888103, 3248222580,
   3835390401, 4022224774, 264347078, 604807628, 770255983, 1249150122, 1555081692, 1996064986,
   2554220882, 2821834349, 2952996808, 3210313671, 3336571891, 3584528711, 113926993, 338241895,
   666307205, 773529912, 1294757372, 1396182291, 1695183700, 1986661051, 2177026350, 2456956037,
   2730485921, 2820302411, 3259730800, 3345764771, 3516065817, 3600352804, 4094571909, 275423344,
   430227734, 506948616, 659060556, 883997877, 958139571, 1322822218, 1537002063, 1747873779,
   1955562222, 2024104815, 2227730452, 2361852424, 2428436474, 2756734187, 3204031479, 3329325298]

/-- The SHA-256 initial hash state. -/
def shaH0 : List Nat :=
  [1779033703, 3144134277, 1013904242, 2773480762, 1359893119, 2600822924, 528734635, 1541459225]

/-- Big-endian 8-byte encoding (for the padded bit length). -/
def u64be (n : Nat) : List Nat :=
  [n / 2 ^ 56 % 256, n / 2 ^ 48 % 256, n / 2 ^ 40 % 256, n / 2 ^ 32 % 256,
   n / 2 ^ 24 % 256, n / 2 ^ 16 % 256, n / 2 ^ 8 % 256, n % 256]

/-- SHA-256 padding: `0x80`, zeros to 56 mod 64, then the bit length. -/
def shaPad (msg : List Nat) : List Nat :=
  msg ++ 128 :: List.replicate ((119 - msg.length % 64) % 64) 0 ++ u64be (8 * msg.length)

/-- Group bytes into big-endian 32-bit words. -/
def bytesToWords : List Nat → List Nat
  | b0 :: b1 :: b2 :: b3 :: rest =>
      (b0 * 2 ^ 24 + b1 * 2 ^ 16 + b2 * 2 ^ 8 + b3) :: bytesToWords rest
  | _ => []

/-- Message-schedule extension: the accumulator keeps all scheduled words
newest-first, so `w[t-2]`, `w[t-7]`, `w[t-15]`, `w[t-16]` are at positions
1, 6, 14, 15. -/
def shaExtendAux : Nat → List Nat → List Nat
  | 0, acc => acc.reverse
  | fuel + 1, acc =>
      let nw := w32 (ssig1 (acc.getD 1 0) + acc.getD 6 0 + ssig0 (acc.getD 14 0) + acc.getD 15 0)
      shaExtendAux fuel (nw :: acc)

/-- The 64-word message schedule of one block. -/
def shaSchedule (w16 : List Nat) : List Nat :=
  shaExtendAux 48 w16.reverse

/-- The 64 compression rounds, consuming paired round constants and
schedule words. -/
def shaRounds : List (Nat × Nat) → Nat → Nat → Nat → Nat → Nat → Nat → Nat → Nat →
    Nat × Nat × Nat × Nat × Nat × Nat × Nat × Nat
  | [], a, b, c, d, e, f, g, h => (a, b, c, d, e, f, g, h)
  | (k, w) :: rest, a, b, c, d, e, f, g, h =>
      let t1 := w32 (h + bsig1 e + shaCh e f g + k + w)
      let t2 := w32 (bsig0 a + shaMaj a b c)
      shaRounds rest (w32 (t1 + t2)) a b c (w32 (d + t1)) e f g

/-- One block step: compress and add into the chaining state. -/
def shaBlock (state : List Nat) (block : List Nat) : List Nat :=
  let ws := shaSchedule (bytesToWords block)
  match state with
  | [a, b, c, d, e, f, g, h] =>
      match shaRounds (shaK.zip ws) a b c d e f g h with
      | (a1, b1, c1, d1, e1, f1, g1, h1) =>
          [w32 (a + a1), w32 (b + b1), w32 (c + c1), w32 (d + d1),
           w32 (e + e1), w32 (f + f1), w32 (g + g1), w32 (h + h1)]
  | other => other

/-- Fold the 64-byte blocks of the padded message. -/
def shaBlocks : Nat → List Nat → List Nat → List Nat
  | 0, state, _ => state
  | _ + 1, state, [] => state
  | fuel + 1, state, bytes => shaBlocks fuel (shaBlock state (bytes.take 64)) (bytes.drop 64)

/-- A 32-bit word as four big-endian bytes. -/
def wordBytes (w : Nat) : List Nat :=
  [w / 2 ^ 24 % 256, w / 2 ^ 16 % 256, w / 2 ^ 8 % 256, w % 256]

/-- SHA-256 of a byte list, as 32 digest bytes. -/
def sha256 (msg : List Nat) : List Nat :=
  let padded := shaPad msg
  (shaBlocks (padded.length / 64 + 1) shaH0 padded).flatMap wordBytes

/-! `src/crypto.rs`: modular exponentiation, Miller–Rabin, hash-to-prime and
discriminant generation. -/

/-- The `while !exp.is_zero()` loop of `mod_pow`; remainders by the modulus
abort when it is zero, as in Rust. -/
def modPowLoop : Nat → Int → Int → Int → Int → Option Int
  | 0, _, _, _, _ => none
  | fuel + 1, result, base, exp, m =>
    if exp = 0 then some result
    else do
      let result1 ← if exp.tmod 2 = 1 then tmodP (result * base) m else pure result
      let base1 ← tmodP (base * base) m
      modPowLoop fuel result1 base1 (exp.fdiv 2) m

/-- `mod_pow` from `src/crypto.rs`. -/
def modPowE (base exp m : Int) : Option Int :=
  if exp = 0 then some 1
  else do
    let b0 ← tmodP base m
    modPowLoop (exp.natAbs + 2) 1 b0 exp m

/-- The `while d % 2 == 0` decomposition `n - 1 = 2^r * d` of Miller–Rabin;
the fuel (a bit count) always suffices, and on the zero input the loop is
never entered. -/
def mrDecompose : Nat → Int → Nat → Int × Nat
  | 0, d, r => (d, r)
  | fuel + 1, d, r => if d.tmod 2 = 0 then mrDecompose fuel (d.fdiv 2) (r + 1) else (d, r)

/-- The `for _ in 0..r-1` squaring loop of Miller–Rabin; returns the final
`composite` flag. -/
def mrSquareLoop : Nat → Int → Int → Option Bool
  | 0, _, _ => some true
  | k + 1, x, n => do
    let x2 ← modPowE x 2 n
    if x2 = n - 1 then some false else mrSquareLoop k x2 n

/-- One witness round of `is_probably_prime`: `none` for "keep going",
`some b` for an early return of `b` from the function. -/
def mrWitness (n : Int) (a : Nat) : Option (Option Bool) :=
  if n ≤ (a : Int) then some (some (decide (n = (a : Int))))
  else do
    let nm1 := n - 1
    let (d, r) := mrDecompose (nm1.natAbs + 2) nm1 0
    let x ← modPowE (a : Int) d n
    if x = 1 ∨ x = nm1 then some none
    else do
      let composite ← mrSquareLoop (r - 1) x n
      if composite then some (some false) else some none

/-- The `for &a in &witnesses` loop of `is_probably_prime`. -/
def mrFold : List Nat → Int → Option Bool
  | [], _ => some true
  | a :: rest, n => do
    match ← mrWitness n a with
    | some b => pure b
    | none => mrFold rest n

/-- `is_probably_prime` from `src/crypto.rs` with the fixed witness set. -/
def isProbablyPrimeE (n : Int) : Option Bool :=
  if n < 2 then some false
  else if n = 2 ∨ n = 3 then some true
  else if n.tmod 2 = 0 then some false
  else mrFold [2, 3, 5, 7, 11, 13, 17, 19, 23] n

/-- The `while !is_probably_prime(&prime)` search of `hash_prime`; the fuel
bounds a loop that Rust leaves unbounded, far beyond any reachable prime
gap. -/
def hashPrimeLoop : Nat → Int → Option Int
  | 0, _ => none
  | fuel + 1, p => do
    if ← isProbablyPrimeE p then pure p else hashPrimeLoop fuel (p + 2)

/-- `hash_prime` from `src/crypto.rs`; the caller's slice list is hashed as
its concatenation. -/
def hashPrimeE (data : List Nat) : Option Int :=
  let h : Int := (bytesToNatBE (sha256 data) : Nat)
  let start := if h.tmod 2 = 0 then h + 1 else h
  hashPrimeLoop 1000000 start

/-- `u64::to_be_bytes` of the candidate counter. -/
def u64beBytes (n : Nat) : List Nat := u64be (n % 2 ^ 64)

/-- The bytes of the string literal `"discriminant_generation"`. -/
def discGenTag : List Nat :=
  [100, 105, 115, 99, 114, 105, 109, 105, 110, 97, 110, 116, 95,
   103, 101, 110, 101, 114, 97, 116, 105, 111, 110]

/-- The `while extended_bytes.len() * 8 < bit_length` expansion loop of
`generate_discriminant` (32 bytes per iteration, so fuel `bl` is ample). -/
def extendLoop (bl : Nat) (hash : List Nat) : Nat → Nat → List Nat → List Nat
  | 0, _, acc => acc
  | fuel + 1, ctr, acc =>
    if acc.length * 8 < bl then
      extendLoop bl hash fuel (ctr + 1) (acc ++ sha256 (hash ++ u32be (ctr % 2 ^ 32)))
    else acc

/-- Bit length of a natural number, as `BigUint::bits` reports it (0 for 0). -/
def natBitsAux : Nat → Nat → Nat
  | 0, _ => 0
  | fuel + 1, n => if n = 0 then 0 else natBitsAux fuel (n / 2) + 1

/-- Bit length entry point. -/
def natBits (n : Nat) : Nat := natBitsAux (n + 1) n

/-- `BigInt::bits`: the bit length of the magnitude. -/
def intBits (v : Int) : Nat := natBits v.natAbs

/-- The mod-4 adjustment of `generate_discriminant`: subtract
`(d % 4) + 3` unless the truncated remainder is already `-3`. -/
def adjustMod4 (d : Int) : Int :=
  let r := d.tmod 4
  if r ≠ -3 then d - (r + 3) else d

/-- One candidate of `generate_discriminant`: hash, optional expansion past
256 bits, negation of the absolute value, mod-4 adjustment. -/
def genCandidate (challenge : List Nat) (bl : Nat) (counter : Nat) : Int :=
  let hash := sha256 (challenge ++ discGenTag ++ u64beBytes counter)
  let base : Int :=
    if 256 < bl then
      (bytesToNatBE ((extendLoop bl hash (bl + 32) 0 []).take ((bl + 7) / 8)) : Nat)
    else (bytesToNatBE hash : Nat)
  adjustMod4 (-(base.natAbs : Int))

/-- The fallback discriminant used when the retry budget is exhausted. -/
def genFallback (bl : Nat) : Int :=
  adjustMod4 (-((2 : Int) ^ (bl - 1)) - 3)

/-- The candidate loop of `generate_discriminant`: accept when the bit
length lands in `[bl - 8, bl + 8]`, fall back after the counter passes
10000.  Fuel 10002 covers every reachable iteration. -/
def genLoop (challenge : List Nat) (bl : Nat) : Nat → Nat → Option Int
  | 0, _ => none
  | fuel + 1, counter =>
    let d := genCandidate challenge bl counter
    let bits := intBits d
    if bl - 8 ≤ bits ∧ bits ≤ bl + 8 then some d
    else if counter + 1 > 10000 then some (genFallback bl)
    else genLoop challenge bl fuel (counter + 1)

/-- `generate_discriminant` from `src/crypto.rs`. -/
def generateDiscriminant (challenge : List Nat) (bl : Nat) : Option Int :=
  genLoop challenge bl 10002 0

/-! `src/vdf.rs`: the VDF protocol. -/

/-- `WesolowskiVDF`: the per-instance parameters. -/
structure WesolowskiVDF where
  generator : ClassGroupElement
  discriminant : Int
  deriving DecidableEq, Repr

/-- `WesolowskiVDF::new`: derive a 1024-bit discriminant from the
challenge and take the standard generator. -/
def vdfNew (challenge : List Nat) : Option WesolowskiVDF := do
  let d ← generateDiscriminant challenge 1024
  pure ⟨generatorElem d, d⟩

/-- The `for _ in 0..iterations` sequential-squaring loop of `compute`. -/
def iterSquare : Nat → ClassGroupElement → Option ClassGroupElement
  | 0, x => some x
  | n + 1, x => do
    let y ← composeE x x
    iterSquare n y

/-- `WesolowskiVDF::generate_proof`: Fiat–Shamir prime, quotient and
remainder of `2^T`, the failed-`assert_eq!` abort, `π = g^q`, and the wire
format `π ‖ len(q) ‖ q ‖ len(r) ‖ r`. -/
def generateProof (v : WesolowskiVDF) (output : ClassGroupElement) (t : Nat) :
    Option (List Nat) := do
  let l ← hashPrimeE (serializeElem v.generator ++ serializeElem output)
  let twoT : Int := 2 ^ t
  let q ← tdivP twoT l
  let r ← tmodP twoT l
  if l * q + r ≠ twoT then none
  else do
    let prfElem ← powE v.generator q
    let qb := natBytesBE q.natAbs
    let rb := natBytesBE r.natAbs
    pure (serializeElem prfElem ++ u32be (qb.length % 2 ^ 32) ++ qb ++
          u32be (rb.length % 2 ^ 32) ++ rb)

/-- `WesolowskiVDF::compute`: `T` sequential squarings, then the proof. -/
def computeVDF (v : WesolowskiVDF) (t : Nat) : Option (ClassGroupElement × List Nat) := do
  let y ← iterSquare t v.generator
  let prf ← generateProof v y t
  pure (y, prf)

/-- The parsing phase of `verify`: the minimum-length check, `π` via
`deserialize` with the offset recovered by re-serializing, then the two
length-prefixed unsigned values.  `none` here makes `verify` return
`false`. -/
def parsePhase (proof : List Nat) (d : Int) : Option (ClassGroupElement × Int × Int) :=
  if proof.length < 23 then none
  else do
    let prfElem ← deserializeElem proof d
    let off0 := (serializeElem prfElem).length
    if off0 + 4 > proof.length then none
    else
      let qlen := bytesToNatBE ((proof.drop off0).take 4)
      let off1 := off0 + 4
      if off1 + qlen > proof.length then none
      else
        let q : Int := (bytesToNatBE ((proof.drop off1).take qlen) : Nat)
        let off2 := off1 + qlen
        if off2 + 4 > proof.length then none
        else
          let rlen := bytesToNatBE ((proof.drop off2).take 4)
          let off3 := off2 + 4
          if off3 + rlen > proof.length then none
          else
            let r : Int := (bytesToNatBE ((proof.drop off3).take rlen) : Nat)
            some (prfElem, q, r)

/-- `WesolowskiVDF::verify`: parse (failure is the boolean `false`),
recompute the Fiat–Shamir prime and the quotient/remainder sanity check,
then the equation `π^l ∘ g^r == y` by structural equality.  (The
`remainder.bits()` loop in the source binds nothing and has no effect, so
it has no counterpart here.) -/
def verifyVDF (v : WesolowskiVDF) (output : ClassGroupElement) (proof : List Nat)
    (t : Nat) : Option Bool :=
  match parsePhase proof v.discriminant with
  | none => some false
  | some (prfElem, q, r) => do
    let l ← hashPrimeE (serializeElem v.generator ++ serializeElem output)
    let twoT : Int := 2 ^ t
    let qCheck ← tdivP twoT l
    let rCheck ← tmodP twoT l
    if q ≠ qCheck ∨ r ≠ rCheck then some false
    else do
      let piL ← powE prfElem l
      let gR ← powE v.generator r
      let lhs ← composeE piL gR
      some (decide (lhs = output))

/-! Validity predicates from the specification's data model. -/

/-- The reduced-form predicate of the specification: `|b| ≤ a ≤ c`, and on
the boundaries `|b| = a` or `a = c` also `b ≥ 0`. -/
def IsReduced (x : ClassGroupElement) : Prop :=
  |x.b| ≤ x.a ∧ x.a ≤ x.c ∧ ((|x.b| = x.a ∨ x.a = x.c) → 0 ≤ x.b)

instance (x : ClassGroupElement) : Decidable (IsReduced x) := by
  unfold IsReduced; infer_instance

/-- The stored discriminant agrees with the form: `b² - 4ac = D`. -/
def DiscValid (x : ClassGroupElement) : Prop :=
  x.b * x.b - 4 * x.a * x.c = x.discriminant

instance (x : ClassGroupElement) : Decidable (DiscValid x) := by
  unfold DiscValid; infer_instance

end VdfScaffold

namespace VdfScaffold

/-- Claim C3, counterexample: `D = -11` is a negative discriminant with
`D ≡ 1 (mod 4)`, yet `generator(-11)` is the form `(2, 1, 1)` whose
discriminant is `-7`, not `-11`: the quotient `(1 - D)/8` is not exact and
the truncated division silently loses the invariant, so the claim as stated
is false. -/
theorem c3_generator_counterexample :
    (-11 : Int) < 0 ∧ (-11 : Int) % 4 = 1 ∧
    generatorElem (-11) = ⟨2, 1, 1, -11⟩ ∧
    ¬ DiscValid (generatorElem (-11)) ∧ ¬ (8 : Int) ∣ (1 - (-11)) := by
  decide

/-- Claim C3, amended: for `D < 0` with `D ≡ 1 (mod 4)` the identity
constructor always yields a reduced form of discriminant `D`; the generator
constructor does so exactly when additionally `D ≡ 1 (mod 8)` (making
`(1 - D)/8` an exact quotient) and `D ≤ -15` (making `c ≥ a`). -/
theorem c3_constructors_amended (D : Int) (hneg : D < 0) (h4 : D % 4 = 1) :
    (IsReduced (identityElem D) ∧ DiscValid (identityElem D)) ∧
    (D % 8 = 1 → D ≤ -15 →
      IsReduced (generatorElem D) ∧ DiscValid (generatorElem D) ∧ (8 : Int) ∣ (1 - D)) := by
  obtain ⟨k, hk⟩ : (4 : Int) ∣ (1 - D) := by omega
  have hid : (1 - D).tdiv 4 = k := by
    rw [hk, Int.mul_tdiv_cancel_left _ (by norm_num)]
  have hk1 : 1 ≤ k := by omega
  constructor
  · refine ⟨⟨?_, ?_, ?_⟩, ?_⟩
    · show |(1 : Int)| ≤ 1; simp
    · show (1 : Int) ≤ (1 - D).tdiv 4; omega
    · intro _; show (0 : Int) ≤ 1; norm_num
    · show (1 : Int) * 1 - 4 * 1 * (1 - D).tdiv 4 = D; omega
  · intro h8 hle
    obtain ⟨j, hj⟩ : (8 : Int) ∣ (1 - D) := by omega
    have hgen : (1 - D).tdiv 8 = j := by
      rw [hj, Int.mul_tdiv_cancel_left _ (by norm_num)]
    have hj2 : 2 ≤ j := by omega
    refine ⟨⟨?_, ?_, ?_⟩, ?_, ⟨j, hj⟩⟩
    · show |(1 : Int)| ≤ 2; simp
    · show (2 : Int) ≤ (1 - D).tdiv 8; omega
    · intro _; show (0 : Int) ≤ 1; norm_num
    · show (1 : Int) * 1 - 4 * 2 * (1 - D).tdiv 8 = D; omega

/-- Claim C3, witness at `D = -23`. -/
theorem c3_constructors_witness :
    (IsReduced (identityElem (-23)) ∧ DiscValid (identityElem (-23))) ∧
    ((-23 : Int) % 8 = 1 → (-23 : Int) ≤ -15 →
      IsReduced (generatorElem (-23)) ∧ DiscValid (generatorElem (-23)) ∧
        (8 : Int) ∣ (1 - (-23))) :=
  c3_constructors_amended (-23) (by decide) (by decide)

set_option maxRecDepth 100000 in
/-- Claim C4: the discriminant invariant is violated by `compose`.  Both
operands are the valid reduced form `(2, 1, 9)` of discriminant `-71`
(a negative discriminant `≡ 1 (mod 4)`), yet the composed result is
`(4, 1, 4)` with `b² - 4ac = -63 ≠ -71`: the truncated division in the
composition produced a wrong `c`, and the fix-up in `reduce` recomputes it
with the same inexact division, leaving the invariant broken. -/
theorem c4_disc_invariant_failure :
    ((-71 : Int) < 0 ∧ (-71 : Int) % 4 = 1 ∧
      IsReduced ⟨2, 1, 9, -71⟩ ∧ DiscValid ⟨2, 1, 9, -71⟩) ∧
    composeE ⟨2, 1, 9, -71⟩ ⟨2, 1, 9, -71⟩ = some ⟨4, 1, 4, -71⟩ ∧
    ¬ DiscValid (⟨4, 1, 4, -71⟩ : ClassGroupElement) := by
  decide

set_option maxRecDepth 100000 in
/-- Claim C5: the reduced-form invariant is violated by `compose`.  Both
operands are the valid reduced form `(2, -1, 3)` of discriminant `-23`,
yet the composed result is `(-4, -1, -1)`, which is not reduced (its `a` is
negative): the source `gcd` returns `-1` here, the general branch then
builds a form with negative `a`, and the reduction loop cannot make
progress on it. -/
theorem c5_reduced_invariant_failure :
    ((-23 : Int) < 0 ∧ (-23 : Int) % 4 = 1 ∧
      IsReduced ⟨2, -1, 3, -23⟩ ∧ DiscValid ⟨2, -1, 3, -23⟩) ∧
    composeE ⟨2, -1, 3, -23⟩ ⟨2, -1, 3, -23⟩ = some ⟨-4, -1, -1, -23⟩ ∧
    ¬ IsReduced (⟨-4, -1, -1, -23⟩ : ClassGroupElement) := by
  decide

/-- Claim C10: the composed form depends only on the `a` and `b` components
of the operands and the shared discriminant; when neither operand takes the
identity short-circuit (`a ≠ 1`), replacing either `c` component by
anything else leaves the result unchanged. -/
theorem c10_c_noninterference (a1 b1 c1 c1' a2 b2 c2 c2' D : Int)
    (h1 : a1 ≠ 1) (h2 : a2 ≠ 1) :
    composeE ⟨a1, b1, c1, D⟩ ⟨a2, b2, c2, D⟩ =
      composeE ⟨a1, b1, c1', D⟩ ⟨a2, b2, c2', D⟩ := by
  simp only [composeE, h1, h2, if_false, ne_eq, not_true_eq_false, if_true, ite_false]

/-- Claim C10, witness: a concrete instance with both `c` components
replaced. -/
theorem c10_c_noninterference_witness :
    composeE ⟨3, 1, 2, -23⟩ ⟨3, -1, 2, -23⟩ =
      composeE ⟨3, 1, 700, -23⟩ ⟨3, -1, -5, -23⟩ :=
  c10_c_noninterference 3 1 2 700 3 (-1) 2 (-5) (-23) (by decide) (by decide)

/-- Claim C7: the identity form is neutral for composition among valid
reduced forms of a discriminant `D ≡ 1 (mod 4)`: composing with the
identity on either side returns the other operand unchanged. -/
theorem c7_identity_neutral (D : Int) (x : ClassGroupElement)
    (hd : x.discriminant = D) (hdisc : DiscValid x) (hred : IsReduced x)
    (h4 : D % 4 = 1) :
    composeE (identityElem D) x = some x ∧ composeE x (identityElem D) = some x := by
  have hdl : (identityElem D).discriminant = D := rfl
  have hal : (identityElem D).a = 1 := rfl
  have hdv : x.b * x.b - 4 * x.a * x.c = D := by
    have h := hdisc; unfold DiscValid at h; rw [hd] at h; exact h
  constructor
  · unfold composeE
    rw [hdl, hd, hal]
    simp
  · unfold composeE
    rw [hdl, hd, hal]
    simp only [ne_eq, not_true_eq_false, if_false, if_true]
    by_cases hxa : x.a = 1
    · -- a reduced valid form with a = 1 is exactly the identity form
      have hbrange : -1 ≤ x.b ∧ x.b ≤ 1 := by
        have := abs_le.mp (hxa ▸ hred.1)
        exact this
      have hb : x.b = 1 := by
        have hb3 := hred.2.2
        rcases (by omega : x.b = -1 ∨ x.b = 0 ∨ x.b = 1) with h | h | h
        · exfalso
          have habs : |x.b| = x.a := by rw [h, hxa]; decide
          have := hb3 (Or.inl habs)
          omega
        · exfalso
          rw [h, hxa] at hdv
          omega
        · exact h
      have hc : x.c = (1 - D).tdiv 4 := by
        rw [hxa, hb] at hdv
        have h4c : (1 : Int) - D = 4 * x.c := by omega
        rw [h4c, Int.mul_tdiv_cancel_left _ (by norm_num)]
      have hx : x = identityElem D := by
        cases x
        simp only [identityElem, ClassGroupElement.mk.injEq]
        simp_all
      rw [if_pos hxa, hx]
    · rw [if_neg hxa]

/-- Claim C7, witness at `D = -7` with `x` the identity form itself. -/
theorem c7_identity_neutral_witness :
    composeE (identityElem (-7)) ⟨1, 1, 2, -7⟩ = some ⟨1, 1, 2, -7⟩ ∧
    composeE ⟨1, 1, 2, -7⟩ (identityElem (-7)) = some ⟨1, 1, 2, -7⟩ :=
  c7_identity_neutral (-7) ⟨1, 1, 2, -7⟩ rfl (by decide) (by decide) (by decide)

/-! Specification lemmas for `generate_discriminant` (claim C8 and the
instance bounds reused by the protocol-level claims). -/

/-- The truncated remainder by 4 of a nonpositive value lies in `(-4, 0]`. -/
theorem tmod_four_bounds (d : Int) (h : d ≤ 0) : -4 < d.tmod 4 ∧ d.tmod 4 ≤ 0 := by
  have hneg : d.tmod 4 = -((-d).tmod 4) := by
    rw [Int.tmod_def, Int.tmod_def, Int.neg_tdiv]
    ring
  have he : (-d).tmod 4 = (-d) % 4 := Int.tmod_eq_emod (by omega) (by norm_num)
  have h1 : 0 ≤ (-d) % 4 := Int.emod_nonneg _ (by norm_num)
  have h2 : (-d) % 4 < 4 := Int.emod_lt_of_pos _ (by norm_num)
  omega

/-- The mod-4 adjustment sends any nonpositive input to a value that is at
most `-3` and is `1` modulo 4. -/
theorem adjustMod4_spec (d : Int) (h : d ≤ 0) :
    adjustMod4 d ≤ -3 ∧ adjustMod4 d % 4 = 1 := by
  have hb := tmod_four_bounds d h
  have hd := Int.tdiv_add_tmod d 4
  unfold adjustMod4
  by_cases hr : d.tmod 4 = -3
  · rw [if_neg (by omega)]
    omega
  · rw [if_pos hr]
    omega

/-- `natBitsAux` with zero input is zero at any fuel. -/
theorem natBitsAux_zero : ∀ fuel, natBitsAux fuel 0 = 0
  | 0 => rfl
  | _ + 1 => by unfold natBitsAux; simp

/-- `natBitsAux` computes the exact bit length when given enough fuel. -/
theorem natBitsAux_range : ∀ fuel n k, n < 2 ^ fuel → 2 ^ k ≤ n → n < 2 ^ (k + 1) →
    natBitsAux fuel n = k + 1 := by
  intro fuel
  induction fuel with
  | zero => intro n k h1 h2 h3; omega
  | succ fuel ih =>
    intro n k h1 h2 h3
    have hn0 : n ≠ 0 := by have := Nat.one_le_two_pow (n := k); omega
    unfold natBitsAux
    rw [if_neg hn0]
    cases k with
    | zero =>
      have : n = 1 := by omega
      subst this
      simp [natBitsAux_zero]
    | succ k =>
      have hdiv1 : 2 ^ k ≤ n / 2 := by
        have : 2 ^ k * 2 ≤ n := by rw [← pow_succ]; exact h2
        omega
      have hdiv2 : n / 2 < 2 ^ (k + 1) := by
        have h4 : n < 2 ^ (k + 1) * 2 := by rw [← pow_succ]; exact h3
        omega
      have hfuel : n / 2 < 2 ^ fuel := by
        have : n < 2 ^ fuel * 2 := by
          calc n < 2 ^ (fuel + 1) := h1
          _ = 2 ^ fuel * 2 := by rw [pow_succ]
        omega
      rw [ih (n / 2) k hfuel hdiv1 hdiv2]

/-- The bit length of a value strictly between consecutive powers of two. -/
theorem natBits_eq (n k : Nat) (h1 : 2 ^ k ≤ n) (h2 : n < 2 ^ (k + 1)) :
    natBits n = k + 1 := by
  unfold natBits
  exact natBitsAux_range (n + 1) n k ((Nat.lt_two_pow n).trans
    (Nat.pow_lt_pow_right (by norm_num) (by omega))) h1 h2

/-- Any candidate emitted by `genCandidate` is at most `-3` and is
`1 (mod 4)`. -/
theorem genCandidate_spec (challenge : List Nat) (bl counter : Nat) :
    genCandidate challenge bl counter ≤ -3 ∧ genCandidate challenge bl counter % 4 = 1 := by
  unfold genCandidate
  exact adjustMod4_spec _ (by omega)

/-- The fallback discriminant for `9 ≤ n` is exactly `-2^(n-1) - 3`, and it
satisfies every postcondition with bit length exactly `n`. -/
theorem genFallback_spec (n : Nat) (hn : 9 ≤ n) :
    genFallback n = -(2 : Int) ^ (n - 1) - 3 ∧ genFallback n ≤ -3 ∧
      genFallback n % 4 = 1 ∧ intBits (genFallback n) = n := by
  have hpow : (4 : Int) ∣ (2 : Int) ^ (n - 1) := by
    have : (2 : Int) ^ (n - 1) = 4 * 2 ^ (n - 3) := by
      rw [show (4 : Int) = 2 ^ 2 by norm_num, ← pow_add]
      congr 1
      omega
    exact ⟨2 ^ (n - 3), this⟩
  have hp1 : (0 : Int) < 2 ^ (n - 1) := pow_pos (by norm_num) _
  have harg : -(2 : Int) ^ (n - 1) - 3 ≤ 0 := by omega
  have hbnd := tmod_four_bounds (-(2 : Int) ^ (n - 1) - 3) harg
  have hdd := Int.tdiv_add_tmod (-(2 : Int) ^ (n - 1) - 3) 4
  have hmod : (-(2 : Int) ^ (n - 1) - 3).tmod 4 = -3 := by
    obtain ⟨p, hp⟩ := hpow
    omega
  have heq : genFallback n = -(2 : Int) ^ (n - 1) - 3 := by
    unfold genFallback adjustMod4
    rw [hmod]
    simp
  have hnb : intBits (genFallback n) = n := by
    rw [heq]
    unfold intBits
    have habs : (-(2 : Int) ^ (n - 1) - 3).natAbs = 2 ^ (n - 1) + 3 := by
      have h2 : ((2 : Int) ^ (n - 1)).natAbs = 2 ^ (n - 1) := by
        rw [Int.natAbs_pow]
        rfl
      omega
    rw [habs]
    have h1 : 2 ^ (n - 1) ≤ 2 ^ (n - 1) + 3 := by omega
    have h2 : 2 ^ (n - 1) + 3 < 2 ^ (n - 1 + 1) := by
      have h8 : (8 : Nat) ≤ 2 ^ (n - 1) := by
        calc (8 : Nat) = 2 ^ 3 := by norm_num
        _ ≤ 2 ^ (n - 1) := Nat.pow_le_pow_right (by norm_num) (by omega)
      have := Nat.pow_succ 2 (n - 1)
      omega
    rw [natBits_eq _ _ h1 h2]
    omega
  refine ⟨heq, ?_, ?_, hnb⟩
  · rw [heq]; omega
  · rw [heq]
    obtain ⟨p, hp⟩ := hpow
    omega

/-- The candidate loop of `generate_discriminant` returns, with its result
negative (at most `-3`), congruent to `1 (mod 4)`, and of bit length within
8 of the target, as long as the fuel dominates the remaining retry budget. -/
theorem genLoop_post (ch : List Nat) (n : Nat) (hn : 9 ≤ n) :
    ∀ fuel counter, 10001 - counter < fuel →
      ∃ D, genLoop ch n fuel counter = some D ∧ D ≤ -3 ∧ D % 4 = 1 ∧
        n - 8 ≤ intBits D ∧ intBits D ≤ n + 8 := by
  intro fuel
  induction fuel with
  | zero => intro counter h; omega
  | succ fuel ih =>
    intro counter _
    unfold genLoop
    by_cases hacc : n - 8 ≤ intBits (genCandidate ch n counter) ∧
        intBits (genCandidate ch n counter) ≤ n + 8
    · refine ⟨genCandidate ch n counter, ?_, ?_, ?_, hacc.1, hacc.2⟩
      · rw [if_pos hacc]
      · exact (genCandidate_spec ch n counter).1
      · exact (genCandidate_spec ch n counter).2
    · rw [if_neg hacc]
      by_cases hcap : counter + 1 > 10000
      · obtain ⟨hfb, hle, hmod, hbits⟩ := genFallback_spec n hn
        refine ⟨genFallback n, ?_, hle, hmod, ?_, ?_⟩
        · rw [if_pos hcap]
        · omega
        · omega
      · rw [if_neg hcap]
        exact ih (counter + 1) (by omega)

/-- The full postcondition of `generate_discriminant`, shared by the
claim-level theorems. -/
theorem generateDiscriminant_spec (seed : List Nat) (n : Nat) (hn : 9 ≤ n) :
    ∃ D, generateDiscriminant seed n = some D ∧ D ≤ -3 ∧ D % 4 = 1 ∧
      n - 8 ≤ intBits D ∧ intBits D ≤ n + 8 :=
  genLoop_post seed n hn 10002 0 (by omega)

/-- Claim C8: `generate_discriminant` is deterministic (in the embedding it
is a pure function of the seed and target bit length), and for `n ≥ 9` its
output `D` satisfies `D < 0`, `D ≡ 1 (mod 4)`, and `bitlen(|D|) ∈
[n - 8, n + 8]`. -/
theorem c8_discriminant_postconditions (seed : List Nat) (n : Nat) (hn : 9 ≤ n) :
    (∀ seed2 n2, seed2 = seed → n2 = n →
        generateDiscriminant seed2 n2 = generateDiscriminant seed n) ∧
    ∃ D, generateDiscriminant seed n = some D ∧ D < 0 ∧ D % 4 = 1 ∧
      n - 8 ≤ intBits D ∧ intBits D ≤ n + 8 := by
  refine ⟨fun seed2 n2 h1 h2 => by rw [h1, h2], ?_⟩
  obtain ⟨D, h1, h2, h3, h4, h5⟩ := generateDiscriminant_spec seed n hn
  exact ⟨D, h1, by omega, h3, h4, h5⟩

/-- Claim C8, witness at the default 1024-bit target. -/
theorem c8_discriminant_witness :
    (∀ seed2 n2, seed2 = [116, 101, 115, 116] → n2 = 1024 →
        generateDiscriminant seed2 n2 = generateDiscriminant [116, 101, 115, 116] 1024) ∧
    ∃ D, generateDiscriminant [116, 101, 115, 116] 1024 = some D ∧ D < 0 ∧ D % 4 = 1 ∧
      1024 - 8 ≤ intBits D ∧ intBits D ≤ 1024 + 8 :=
  c8_discriminant_postconditions [116, 101, 115, 116] 1024 (by norm_num)

/-! Value and shape lemmas for the byte serialization (claim C6 and the
proof parsing of the protocol claims). -/

/-- Folding a big-endian byte list from an initial value. -/
def foldVal (v : Nat) (bs : List Nat) : Nat :=
  bs.foldl (fun acc b => acc * 256 + b) v

/-- `bytesToNatBE` is `foldVal 0`. -/
theorem bytesToNatBE_eq_foldVal (bs : List Nat) : bytesToNatBE bs = foldVal 0 bs := rfl

/-- `foldVal` distributes over append. -/
theorem foldVal_append (v : Nat) (l1 l2 : List Nat) :
    foldVal v (l1 ++ l2) = foldVal (foldVal v l1) l2 :=
  List.foldl_append _ _ _ _

/-- `natBytesAux` on input zero returns its accumulator. -/
theorem natBytesAux_zero : ∀ fuel acc, natBytesAux fuel 0 acc = acc
  | 0, _ => rfl
  | _ + 1, _ => by unfold natBytesAux; simp

/-- `natBytesAux`'s accumulator is a suffix. -/
theorem natBytesAux_append : ∀ fuel n acc, natBytesAux fuel n acc = natBytesAux fuel n [] ++ acc
  | 0, _, _ => rfl
  | fuel + 1, n, acc => by
    unfold natBytesAux
    by_cases hn : n = 0
    · simp [hn]
    · rw [if_neg hn, if_neg hn, natBytesAux_append fuel (n / 256) (n % 256 :: acc),
        natBytesAux_append fuel (n / 256) [n % 256], List.append_assoc]
      rfl

/-- Value and length of the digit expansion of a positive number with
enough fuel. -/
theorem natBytesAux_val : ∀ fuel n, 0 < n → n < 256 ^ fuel →
    ∀ v, foldVal v (natBytesAux fuel n []) =
      v * 256 ^ (natBytesAux fuel n []).length + n := by
  intro fuel
  induction fuel with
  | zero => intro n h1 h2; omega
  | succ fuel ih =>
    intro n h1 h2 v
    unfold natBytesAux
    rw [if_neg (by omega)]
    rw [natBytesAux_append fuel (n / 256) [n % 256]]
    by_cases hq : n / 256 = 0
    · rw [hq, natBytesAux_zero]
      show foldVal v [n % 256] = v * 256 ^ (List.length [n % 256]) + n
      have : n % 256 = n := Nat.mod_eq_of_lt (by omega)
      simp [foldVal, this]
    · have hqb : n / 256 < 256 ^ fuel := by
        have : n < 256 ^ fuel * 256 := by
          have := pow_succ 256 fuel
          omega
        omega
      rw [foldVal_append, ih (n / 256) (by omega) hqb v]
      show (v * 256 ^ (natBytesAux fuel (n / 256) []).length + n / 256) * 256 + n % 256 = _
      rw [List.length_append, List.length_singleton, pow_add, pow_one, ← mul_assoc]
      omega

/-- Round trip of the magnitude bytes. -/
theorem bytesToNatBE_natBytesBE (n : Nat) : bytesToNatBE (natBytesBE n) = n := by
  unfold natBytesBE
  by_cases hn : n = 0
  · simp [hn]; rfl
  · rw [if_neg hn, bytesToNatBE_eq_foldVal,
      natBytesAux_val (n + 1) n (by omega) (lt_of_lt_of_le (Nat.lt_two_pow n)
        (by
          have := Nat.pow_le_pow_left (show 2 ≤ 256 by norm_num) n
          calc (2 : Nat) ^ n ≤ 256 ^ n := this
          _ ≤ 256 ^ (n + 1) := Nat.pow_le_pow_right (by norm_num) (by omega))) 0]
    simp

/-- The magnitude bytes are never empty. -/
theorem natBytesBE_ne_nil (n : Nat) : natBytesBE n ≠ [] := by
  unfold natBytesBE
  by_cases hn : n = 0
  · simp [hn]
  · rw [if_neg hn]
    intro hcon
    have := natBytesAux_val (n + 1) n (by omega) (lt_of_lt_of_le (Nat.lt_two_pow n)
      (by
        have := Nat.pow_le_pow_left (show 2 ≤ 256 by norm_num) n
        calc (2 : Nat) ^ n ≤ 256 ^ n := this
        _ ≤ 256 ^ (n + 1) := Nat.pow_le_pow_right (by norm_num) (by omega))) 0
    rw [hcon] at this
    simp [foldVal] at this
    omega

/-- `u32be` always produces four bytes. -/
theorem u32be_length (l : Nat) : (u32be l).length = 4 := rfl

/-- `u32be` round-trips values below `2^32`. -/
theorem bytesToNatBE_u32be (l : Nat) (h : l < 2 ^ 32) : bytesToNatBE (u32be l) = l := by
  show ((((0 * 256 + l / 2 ^ 24 % 256) * 256 + l / 2 ^ 16 % 256) * 256 +
      l / 2 ^ 8 % 256) * 256 + l % 256) = l
  omega

/-- A run of zero bytes has value zero. -/
theorem bytesToNatBE_replicate_zero (k : Nat) : bytesToNatBE (List.replicate k 0) = 0 := by
  induction k with
  | zero => rfl
  | succ k ih =>
    show bytesToNatBE (0 :: List.replicate k 0) = 0
    show foldVal (0 * 256 + 0) (List.replicate k 0) = 0
    simpa [bytesToNatBE_eq_foldVal] using ih

/-- The shape of one serialized block. -/
theorem serializeInt_shape (v : Int) (h : (natBytesBE v.natAbs).length < 2 ^ 32) :
    serializeInt v = u32be (natBytesBE v.natAbs).length ++
      (if v < 0 then 1 else 0) :: natBytesBE v.natAbs := by
  simp only [serializeInt]
  rw [Nat.mod_eq_of_lt h]

/-- Length of one serialized block. -/
theorem serializeInt_length (v : Int) :
    (serializeInt v).length = 5 + (natBytesBE v.natAbs).length := by
  unfold serializeInt
  simp [u32be]
  omega

/-- Reading one block back from anywhere inside a byte string recovers the
value and advances the offset past the block. -/
theorem readIntBlock_at (pre rest : List Nat) (v : Int)
    (hlen : (natBytesBE v.natAbs).length < 2 ^ 32) :
    readIntBlock (pre ++ serializeInt v ++ rest) pre.length =
      some (v, pre.length + (serializeInt v).length) := by
  set mag := natBytesBE v.natAbs with hmag
  set flag : Nat := if v < 0 then 1 else 0 with hflag
  have hshape : serializeInt v = u32be mag.length ++ flag :: mag := serializeInt_shape v hlen
  have hslen : (serializeInt v).length = 5 + mag.length := serializeInt_length v
  have hlenb : (pre ++ serializeInt v ++ rest).length =
      pre.length + (5 + mag.length) + rest.length := by
    simp only [List.length_append, hslen]
  have hdrop0 : (pre ++ serializeInt v ++ rest).drop pre.length =
      serializeInt v ++ rest := by
    rw [List.append_assoc, List.drop_left]
  have hdrop4 : (pre ++ serializeInt v ++ rest).drop (pre.length + 4) =
      flag :: (mag ++ rest) := by
    rw [← List.drop_drop, hdrop0, hshape, List.append_assoc,
      show (4 : Nat) = (u32be mag.length).length from rfl, List.drop_left]
    rfl
  have hdrop5 : (pre ++ serializeInt v ++ rest).drop (pre.length + 4 + 1) =
      mag ++ rest := by
    rw [← List.drop_drop, hdrop4]
    rfl
  unfold readIntBlock
  rw [if_neg (by omega)]
  have htake4 : ((pre ++ serializeInt v ++ rest).drop pre.length).take 4 = u32be mag.length := by
    rw [hdrop0, hshape, List.append_assoc,
      show (4 : Nat) = (u32be mag.length).length from rfl, List.take_left]
  rw [htake4, bytesToNatBE_u32be mag.length hlen]
  rw [if_neg (by omega)]
  rw [hdrop4]
  rw [if_neg (by omega)]
  rw [hdrop5, show (mag ++ rest).take mag.length = mag from List.take_left mag rest]
  have hval : intOfSignMag ((flag :: (mag ++ rest)).headD 0) mag = v := by
    show intOfSignMag flag mag = v
    unfold intOfSignMag
    rw [hmag, bytesToNatBE_natBytesBE]
    by_cases hv : v < 0
    · rw [hflag, if_pos hv, if_pos rfl]
      omega
    · rw [hflag, if_neg hv, if_neg (by norm_num)]
      omega
  rw [hval, hslen, show pre.length + 4 + 1 + mag.length = pre.length + (5 + mag.length) by omega]

/-- Every serialized block is at least six bytes. -/
theorem serializeInt_length_ge (v : Int) : 6 ≤ (serializeInt v).length := by
  rw [serializeInt_length]
  have := List.length_pos.mpr (natBytesBE_ne_nil v.natAbs)
  omega

/-- Deserializing a serialized element followed by arbitrary bytes
recovers all three components (with the stored discriminant taken from the
argument), provided each magnitude is shorter than `2^32` bytes. -/
theorem deserializeElem_serializeElem (x : ClassGroupElement) (rest : List Nat) (d : Int)
    (ha : (natBytesBE x.a.natAbs).length < 2 ^ 32)
    (hb : (natBytesBE x.b.natAbs).length < 2 ^ 32)
    (hc : (natBytesBE x.c.natAbs).length < 2 ^ 32) :
    deserializeElem (serializeElem x ++ rest) d = some ⟨x.a, x.b, x.c, d⟩ := by
  have hassoc : serializeElem x ++ rest =
      serializeInt x.a ++ (serializeInt x.b ++ (serializeInt x.c ++ rest)) := by
    unfold serializeElem
    simp [List.append_assoc]
  have h1 : readIntBlock (serializeInt x.a ++ (serializeInt x.b ++ (serializeInt x.c ++ rest))) 0 =
      some (x.a, (serializeInt x.a).length) := by
    have := readIntBlock_at [] (serializeInt x.b ++ (serializeInt x.c ++ rest)) x.a ha
    simpa using this
  have h2 : readIntBlock (serializeInt x.a ++ (serializeInt x.b ++ (serializeInt x.c ++ rest)))
      (serializeInt x.a).length =
      some (x.b, (serializeInt x.a).length + (serializeInt x.b).length) := by
    have := readIntBlock_at (serializeInt x.a) (serializeInt x.c ++ rest) x.b hb
    simpa [List.append_assoc] using this
  have h3 : readIntBlock (serializeInt x.a ++ (serializeInt x.b ++ (serializeInt x.c ++ rest)))
      ((serializeInt x.a).length + (serializeInt x.b).length) =
      some (x.c, (serializeInt x.a).length + (serializeInt x.b).length +
        (serializeInt x.c).length) := by
    have := readIntBlock_at (serializeInt x.a ++ serializeInt x.b) rest x.c hc
    simpa [List.append_assoc, List.length_append] using this
  have hge_a := serializeInt_length_ge x.a
  have hge_b := serializeInt_length_ge x.b
  have hge_c := serializeInt_length_ge x.c
  unfold deserializeElem
  rw [hassoc]
  rw [if_neg (by simp only [List.length_append]; omega)]
  rw [h1]
  simp only [Option.bind_eq_bind, Option.some_bind]
  rw [h2]
  simp only [Option.bind_eq_bind, Option.some_bind]
  rw [h3]
  simp only [Option.bind_eq_bind, Option.some_bind, Option.pure_def]

/-- Claim C6, amended: the serialization round trip holds for every reduced
element whose component magnitudes are each shorter than `2^32` bytes (so
that the `as u32` length cast is lossless). -/
theorem c6_roundtrip_amended (x : ClassGroupElement) (hred : IsReduced x)
    (ha : (natBytesBE x.a.natAbs).length < 2 ^ 32)
    (hb : (natBytesBE x.b.natAbs).length < 2 ^ 32)
    (hc : (natBytesBE x.c.natAbs).length < 2 ^ 32) :
    deserializeElem (serializeElem x) x.discriminant = some x := by
  have h := deserializeElem_serializeElem x [] x.discriminant ha hb hc
  rw [List.append_nil] at h
  exact h

/-- Claim C6, witness at the reduced form `(2, -1, 3)` of discriminant
`-23`. -/
theorem c6_roundtrip_witness :
    deserializeElem (serializeElem ⟨2, -1, 3, -23⟩) (-23) =
      some ⟨2, -1, 3, -23⟩ :=
  c6_roundtrip_amended ⟨2, -1, 3, -23⟩ (by decide) (by decide) (by decide) (by decide)

/-! The serialization round trip fails once a magnitude reaches `2^32`
bytes, because the length prefix is truncated by the `as u32` cast.  The
following block evaluates `deserialize ∘ serialize` on the reduced form
`(A, 1, A)` with `A = 256^(2^32 - 1)` (a one followed by `2^32 - 1` zero
bytes, so exactly `2^32` magnitude bytes). -/

/-- Digit expansion of a power of 256, with any accumulator. -/
theorem natBytesAux_pow256 : ∀ k fuel acc, k < fuel →
    natBytesAux fuel (256 ^ k) acc = 1 :: (List.replicate k 0 ++ acc) := by
  intro k
  induction k with
  | zero =>
    intro fuel acc h
    match fuel, h with
    | fuel + 1, _ =>
      show natBytesAux (fuel + 1) 1 acc = 1 :: ([] ++ acc)
      unfold natBytesAux
      rw [if_neg one_ne_zero]
      norm_num
      exact natBytesAux_zero fuel (1 :: acc)
  | succ k ih =>
    intro fuel acc h
    match fuel, h with
    | fuel + 1, h =>
      unfold natBytesAux
      rw [if_neg (pow_ne_zero _ (by norm_num))]
      have hdiv : 256 ^ (k + 1) / 256 = 256 ^ k := by
        rw [pow_succ, Nat.mul_div_cancel _ (by norm_num)]
      have hmod : 256 ^ (k + 1) % 256 = 0 := by
        rw [pow_succ, Nat.mul_mod_left]
      rw [hdiv, hmod, ih fuel (0 :: acc) (by omega)]
      rw [show List.replicate (k + 1) (0 : Nat) = List.replicate k 0 ++ [0] from
        List.replicate_succ' .., List.append_assoc]
      rfl

/-- The magnitude bytes of `256^k`. -/
theorem natBytesBE_pow256 (k : Nat) :
    natBytesBE (256 ^ k) = 1 :: List.replicate k 0 := by
  unfold natBytesBE
  rw [if_neg (pow_ne_zero _ (by norm_num))]
  rw [natBytesAux_pow256 k (256 ^ k + 1) []
    (by
      have h1 : k < 2 ^ k := Nat.lt_two_pow k
      have h2 : (2 : Nat) ^ k ≤ 256 ^ k := Nat.pow_le_pow_left (by norm_num) k
      omega)]
  rw [List.append_nil]

/-- The serialized block of `A = 256^(2^32-1)`: the length prefix
truncates to zero. -/
theorem serializeInt_hugeA :
    serializeInt ((256 : Int) ^ (2 ^ 32 - 1)) =
      [0, 0, 0, 0, 0, 1] ++ List.replicate (2 ^ 32 - 1) 0 := by
  have hab : ((256 : Int) ^ (2 ^ 32 - 1)).natAbs = 256 ^ (2 ^ 32 - 1) := by
    rw [Int.natAbs_pow]
    rfl
  have hpos : ¬ ((256 : Int) ^ (2 ^ 32 - 1) < 0) :=
    not_lt.mpr (le_of_lt (pow_pos (by norm_num) _))
  simp only [serializeInt, hab, natBytesBE_pow256]
  rw [List.length_cons, List.length_replicate, if_neg hpos]
  rw [show (2 ^ 32 - 1 + 1) % 2 ^ 32 = 0 by norm_num]
  rfl

/-- The block at an offset that lands inside a long run of zero bytes
reads a zero value of zero length and advances by five. -/
theorem readIntBlock_zeros (front : List Nat) (m : Nat) (tail : List Nat)
    (hm : 9 ≤ m) :
    readIntBlock (front ++ List.replicate m 0 ++ tail) front.length =
      some (0, front.length + 5) := by
  have hdrop0 : (front ++ List.replicate m 0 ++ tail).drop front.length =
      List.replicate m 0 ++ tail := by
    rw [List.append_assoc, List.drop_left]
  have hdropk : ∀ k, k ≤ m → (front ++ List.replicate m 0 ++ tail).drop (front.length + k) =
      List.replicate (m - k) 0 ++ tail := by
    intro k hk
    rw [← List.drop_drop, hdrop0, List.drop_append_eq_append_drop, List.drop_replicate,
      List.length_replicate, show k - m = 0 by omega, List.drop_zero]
  have htakek : ∀ j t, t + j ≤ m → ((List.replicate (m - j) (0 : Nat)) ++ tail).take t =
      List.replicate t 0 := by
    intro j t ht
    rw [List.take_append_eq_append_take, List.take_replicate, List.length_replicate,
      show t - (m - j) = 0 by omega, List.take_zero, List.append_nil,
      show t ⊓ (m - j) = t by omega]
  have hlen : front.length + m + tail.length ≤ (front ++ List.replicate m 0 ++ tail).length := by
    simp only [List.length_append, List.length_replicate]
    omega
  have htake4 : ((front ++ List.replicate m 0 ++ tail).drop front.length).take 4 =
      List.replicate 4 0 := by
    rw [hdrop0, List.take_append_eq_append_take, List.take_replicate, List.length_replicate,
      show 4 - m = 0 by omega, List.take_zero, List.append_nil, show 4 ⊓ m = 4 by omega]
  unfold readIntBlock
  rw [if_neg (by omega)]
  rw [htake4, show bytesToNatBE (List.replicate 4 0) = 0 from bytesToNatBE_replicate_zero 4]
  rw [if_neg (by omega)]
  rw [hdropk 4 (by omega)]
  rw [show (List.replicate (m - 4) (0 : Nat) ++ tail).headD 0 = 0 by
    rw [show m - 4 = (m - 5) + 1 by omega, List.replicate_succ]
    rfl]
  rw [if_neg (by omega)]
  rw [hdropk 5 (by omega), htakek 5 0 (by omega)]
  rw [show intOfSignMag 0 (List.replicate 0 0) = 0 from rfl,
    show front.length + 4 + 1 + 0 = front.length + 5 by omega]

/-- The huge magnitude `256^(2^32-1)`: exactly `2^32` magnitude bytes. -/
def hugeA : Int := (256 : Int) ^ (2 ^ 32 - 1)

/-- The reduced valid form `(A, 1, A)` of (negative, `1 mod 4`)
discriminant `1 - 4A²`. -/
def hugeElem : ClassGroupElement := ⟨hugeA, 1, hugeA, 1 - 4 * (hugeA * hugeA)⟩

/-- Associativity normalization of the three serialized blocks. -/
theorem threeBlocksAssoc (N : Nat) :
    (([0, 0, 0, 0, 0, 1] ++ List.replicate N (0 : Nat)) ++ [0, 0, 0, 1, 0, 1]) ++
      ([0, 0, 0, 0, 0, 1] ++ List.replicate N 0) =
    [0, 0, 0, 0, 0, 1] ++ (List.replicate N 0 ++
      ([0, 0, 0, 1, 0, 1] ++ ([0, 0, 0, 0, 0, 1] ++ List.replicate N 0))) := by
  simp only [List.append_assoc]

/-- `serialize` of the huge element in explicit form: a zero length prefix
(the truncated `2^32`), the sign byte, the huge magnitude, then the block
of `b = 1`, then the `c` block. -/
theorem serializeElem_huge :
    serializeElem hugeElem =
      [0, 0, 0, 0, 0, 1] ++ (List.replicate (2 ^ 32 - 1) 0 ++
        ([0, 0, 0, 1, 0, 1] ++ ([0, 0, 0, 0, 0, 1] ++ List.replicate (2 ^ 32 - 1) 0))) := by
  show serializeInt hugeA ++ serializeInt 1 ++ serializeInt hugeA = _
  rw [show serializeInt (1 : Int) = [0, 0, 0, 1, 0, 1] from rfl,
    show serializeInt hugeA = [0, 0, 0, 0, 0, 1] ++ List.replicate (2 ^ 32 - 1) 0 from
      serializeInt_hugeA]
  exact threeBlocksAssoc (2 ^ 32 - 1)

/-- Parsing the truncated serialization, for any run length `N` large
enough: the first block reads length zero (the truncated prefix), the
second reads the length `2^24` out of the magnitude bytes, the third lands
inside the zero run, so the parse returns the zero form. -/
theorem deserializeElem_truncated (N : Nat) (hN : 13 + 2 ^ 24 ≤ N) (d : Int) :
    deserializeElem ([0, 0, 0, 0, 0, 1] ++ (List.replicate N 0 ++
        ([0, 0, 0, 1, 0, 1] ++ ([0, 0, 0, 0, 0, 1] ++ List.replicate N 0)))) d =
      some ⟨0, 0, 0, d⟩ := by
  have hlenB : ([0, 0, 0, 0, 0, 1] ++ (List.replicate N 0 ++
      ([0, 0, 0, 1, 0, 1] ++ ([0, 0, 0, 0, 0, 1] ++ List.replicate N 0)))).length =
      18 + 2 * N := by
    simp only [List.length_append, List.length_cons, List.length_nil, List.length_replicate]
    omega
  have htake : ∀ k t, t ≤ k →
      (List.replicate k (0 : Nat) ++
        ([0, 0, 0, 1, 0, 1] ++ ([0, 0, 0, 0, 0, 1] ++ List.replicate N 0))).take t =
      List.replicate t 0 := by
    intro k t ht
    rw [List.take_append_eq_append_take, List.take_replicate, List.length_replicate,
      show t - k = 0 by omega, List.take_zero, List.append_nil, show t ⊓ k = t by omega]
  have htk4 : (([0, 0, 0, 0, 0, 1] ++ (List.replicate N 0 ++
      ([0, 0, 0, 1, 0, 1] ++ ([0, 0, 0, 0, 0, 1] ++ List.replicate N 0)))).take 4) =
      [0, 0, 0, 0] := rfl
  have hd4 : (([0, 0, 0, 0, 0, 1] ++ (List.replicate N 0 ++
      ([0, 0, 0, 1, 0, 1] ++ ([0, 0, 0, 0, 0, 1] ++ List.replicate N 0)))).drop 4) =
      [0, 1] ++ (List.replicate N 0 ++
        ([0, 0, 0, 1, 0, 1] ++ ([0, 0, 0, 0, 0, 1] ++ List.replicate N 0))) := rfl
  have hhd4 : (([0, 1] ++ (List.replicate N 0 ++
      ([0, 0, 0, 1, 0, 1] ++ ([0, 0, 0, 0, 0, 1] ++ List.replicate N 0)))).headD 0) = 0 := rfl
  have hread1 : readIntBlock ([0, 0, 0, 0, 0, 1] ++ (List.replicate N 0 ++
      ([0, 0, 0, 1, 0, 1] ++ ([0, 0, 0, 0, 0, 1] ++ List.replicate N 0)))) 0 =
      some (0, 5) := by
    unfold readIntBlock
    rw [if_neg (by omega)]
    rw [List.drop_zero, htk4, show bytesToNatBE [0, 0, 0, 0] = 0 from rfl]
    rw [if_neg (by omega)]
    rw [hd4, hhd4]
    rw [if_neg (by omega)]
    rw [List.take_zero, show intOfSignMag 0 [] = 0 from rfl]
  have hdrop6 : ([0, 0, 0, 0, 0, 1] ++ (List.replicate N 0 ++
      ([0, 0, 0, 1, 0, 1] ++ ([0, 0, 0, 0, 0, 1] ++ List.replicate N 0)))).drop 6 =
      List.replicate N 0 ++
        ([0, 0, 0, 1, 0, 1] ++ ([0, 0, 0, 0, 0, 1] ++ List.replicate N 0)) := rfl
  have hdropk : ∀ k, k ≤ N → ([0, 0, 0, 0, 0, 1] ++ (List.replicate N 0 ++
      ([0, 0, 0, 1, 0, 1] ++ ([0, 0, 0, 0, 0, 1] ++ List.replicate N 0)))).drop (6 + k) =
      List.replicate (N - k) 0 ++
        ([0, 0, 0, 1, 0, 1] ++ ([0, 0, 0, 0, 0, 1] ++ List.replicate N 0)) := by
    intro k hk
    rw [← List.drop_drop, hdrop6,
      List.drop_append_eq_append_drop, List.drop_replicate, List.length_replicate,
      show k - N = 0 by omega, List.drop_zero]
  have hd5 : (([0, 0, 0, 0, 0, 1] ++ (List.replicate N 0 ++
      ([0, 0, 0, 1, 0, 1] ++ ([0, 0, 0, 0, 0, 1] ++ List.replicate N 0)))).drop 5) =
      [1] ++ (List.replicate N 0 ++
        ([0, 0, 0, 1, 0, 1] ++ ([0, 0, 0, 0, 0, 1] ++ List.replicate N 0))) := rfl
  have htk14 : (([1] ++ (List.replicate N 0 ++
      ([0, 0, 0, 1, 0, 1] ++ ([0, 0, 0, 0, 0, 1] ++ List.replicate N 0)))).take 4) =
      1 :: ((List.replicate N 0 ++
        ([0, 0, 0, 1, 0, 1] ++ ([0, 0, 0, 0, 0, 1] ++ List.replicate N 0))).take 3) := rfl
  have hhdz : ∀ k, 1 ≤ k → ((List.replicate k (0 : Nat) ++
      ([0, 0, 0, 1, 0, 1] ++ ([0, 0, 0, 0, 0, 1] ++ List.replicate N 0))).headD 0) = 0 := by
    intro k hk
    rw [show k = (k - 1) + 1 by omega, List.replicate_succ]
    rfl
  have hread2 : readIntBlock ([0, 0, 0, 0, 0, 1] ++ (List.replicate N 0 ++
      ([0, 0, 0, 1, 0, 1] ++ ([0, 0, 0, 0, 0, 1] ++ List.replicate N 0)))) 5 =
      some (0, 10 + 2 ^ 24) := by
    unfold readIntBlock
    rw [if_neg (by omega)]
    rw [hd5, htk14, htake N 3 (by omega)]
    rw [show bytesToNatBE (1 :: List.replicate 3 0) = 2 ^ 24 by decide]
    rw [if_neg (by omega)]
    rw [show (5 : Nat) + 4 = 6 + 3 from rfl, hdropk 3 (by omega)]
    rw [hhdz (N - 3) (by omega)]
    rw [if_neg (by omega)]
    rw [show (6 : Nat) + 3 + 1 = 6 + 4 from rfl, hdropk 4 (by omega)]
    rw [htake (N - 4) (2 ^ 24) (by omega)]
    rw [show intOfSignMag 0 (List.replicate (2 ^ 24) 0) = 0 by
      unfold intOfSignMag
      rw [if_neg (by norm_num), bytesToNatBE_replicate_zero]
      rfl]
  have hsplit : List.replicate N (0 : Nat) =
      List.replicate (4 + 2 ^ 24) 0 ++ List.replicate (N - (4 + 2 ^ 24)) 0 := by
    rw [← List.replicate_add, show 4 + 2 ^ 24 + (N - (4 + 2 ^ 24)) = N by omega]
  have hfront : ([0, 0, 0, 0, 0, 1] ++ (List.replicate N 0 ++
      ([0, 0, 0, 1, 0, 1] ++ ([0, 0, 0, 0, 0, 1] ++ List.replicate N 0)))) =
      ([0, 0, 0, 0, 0, 1] ++ List.replicate (4 + 2 ^ 24) 0) ++
        List.replicate (N - (4 + 2 ^ 24)) 0 ++
        ([0, 0, 0, 1, 0, 1] ++ ([0, 0, 0, 0, 0, 1] ++ List.replicate N 0)) := by
    nth_rewrite 1 [hsplit]
    simp only [List.append_assoc]
  have hflen : ([0, 0, 0, 0, 0, 1] ++ List.replicate (4 + 2 ^ 24) (0 : Nat)).length =
      10 + 2 ^ 24 := by
    simp only [List.length_append, List.length_cons, List.length_nil, List.length_replicate]
    omega
  have hread3 : readIntBlock ([0, 0, 0, 0, 0, 1] ++ (List.replicate N 0 ++
      ([0, 0, 0, 1, 0, 1] ++ ([0, 0, 0, 0, 0, 1] ++ List.replicate N 0)))) (10 + 2 ^ 24) =
      some (0, 15 + 2 ^ 24) := by
    have h := readIntBlock_zeros ([0, 0, 0, 0, 0, 1] ++ List.replicate (4 + 2 ^ 24) 0)
      (N - (4 + 2 ^ 24))
      ([0, 0, 0, 1, 0, 1] ++ ([0, 0, 0, 0, 0, 1] ++ List.replicate N 0)) (by omega)
    rw [hflen] at h
    rw [← hfront] at h
    rw [show (10 : Nat) + 2 ^ 24 + 5 = 15 + 2 ^ 24 by omega] at h
    exact h
  unfold deserializeElem
  rw [if_neg (by omega)]
  rw [hread1]
  simp only [Option.bind_eq_bind, Option.some_bind]
  rw [hread2]
  simp only [Option.bind_eq_bind, Option.some_bind]
  rw [hread3]
  simp only [Option.bind_eq_bind, Option.some_bind, Option.pure_def]

/-- Claim C6, counterexample: `hugeElem` is a reduced valid form of a
negative `1 (mod 4)` discriminant, but the round trip mis-parses it (the
truncated length prefix is zero), returning the zero form instead. -/
theorem c6_roundtrip_counterexample :
    IsReduced hugeElem ∧ DiscValid hugeElem ∧ hugeElem.discriminant < 0 ∧
      hugeElem.discriminant % 4 = 1 ∧
      deserializeElem (serializeElem hugeElem) hugeElem.discriminant =
        some ⟨0, 0, 0, hugeElem.discriminant⟩ ∧
      deserializeElem (serializeElem hugeElem) hugeElem.discriminant ≠ some hugeElem := by
  have hApos : (0 : Int) < hugeA := pow_pos (by norm_num) _
  have hred : IsReduced hugeElem := by
    refine ⟨?_, le_refl _, fun _ => zero_le_one⟩
    show |(1 : Int)| ≤ hugeA
    rw [abs_one]
    omega
  have hdisc : DiscValid hugeElem := by
    show (1 : Int) * 1 - 4 * hugeA * hugeA = 1 - 4 * (hugeA * hugeA)
    ring
  have hparse : deserializeElem (serializeElem hugeElem) hugeElem.discriminant =
      some ⟨0, 0, 0, hugeElem.discriminant⟩ := by
    rw [serializeElem_huge]
    exact deserializeElem_truncated (2 ^ 32 - 1) (by norm_num) _
  refine ⟨hred, hdisc, by show (1 : Int) - 4 * (hugeA * hugeA) < 0; nlinarith,
    ?_, hparse, ?_⟩
  · show ((1 : Int) - 4 * (hugeA * hugeA)) % 4 = 1
    have : ∃ k : Int, hugeA * hugeA = k := ⟨_, rfl⟩
    obtain ⟨k, hk⟩ := this
    rw [hk]
    omega
  · rw [hparse]
    intro hcon
    have := (Option.some_inj.mp hcon)
    have ha0 : (0 : Int) = hugeElem.a := congrArg ClassGroupElement.a this
    have : hugeElem.a = hugeA := rfl
    omega

/-! Claim C9: malformed-proof handling in `verify`. -/

/-- Claim C9, amended: whenever the parsing phase of `verify` fails (the
buffer is shorter than 23 bytes, the element fails to deserialize, or a
length prefix overruns the buffer), `verify` returns `false`; but `verify`
can abort on certain parseable proof byte strings (see the
counterexample), so the "never panics" half of the claim is false. -/
theorem c9_parse_failure_rejected (v : WesolowskiVDF) (output : ClassGroupElement)
    (proof : List Nat) (t : Nat) (h : parsePhase proof v.discriminant = none) :
    verifyVDF v output proof t = some false := by
  unfold verifyVDF
  rw [h]

/-- Claim C9, witness: the empty proof byte string is rejected with
`false` (not an abort). -/
theorem c9_parse_failure_witness :
    verifyVDF ⟨⟨2, 1, 3, -23⟩, -23⟩ ⟨2, 1, 3, -23⟩ [] 5 = some false :=
  c9_parse_failure_rejected ⟨⟨2, 1, 3, -23⟩, -23⟩ ⟨2, 1, 3, -23⟩ [] 5 (by decide)

/-! Structural lemmas about the protocol layer: the shape of proofs
produced by `compute` when the quotient is zero, and the behaviour of
`pow` on the identity form and on powers of two.  These drive claim C2. -/

/-- `compose` never changes the stored discriminant. -/
theorem composeE_discriminant (x y z : ClassGroupElement) (h : composeE x y = some z) :
    z.discriminant = x.discriminant := by
  unfold composeE at h
  by_cases hd : x.discriminant ≠ y.discriminant
  · rw [if_pos hd] at h
    cases h
  · rw [if_neg hd] at h
    push_neg at hd
    by_cases hx : x.a = 1
    · rw [if_pos hx] at h
      cases h
      omega
    · rw [if_neg hx] at h
      by_cases hy : y.a = 1
      · rw [if_pos hy] at h
        cases h
        rfl
      · rw [if_neg hy] at h
        have hred : ∀ w z', reduceE w = some z' → z'.discriminant = w.discriminant := by
          intro w z' hw
          unfold reduceE at hw
          cases hrl : reduceLoop 1000 w.a w.b w.c with
          | none => rw [hrl] at hw; cases hw
          | some abc =>
            rw [hrl] at hw
            obtain ⟨a1, b1, c1⟩ := abc
            simp only [Option.bind_eq_bind, Option.some_bind] at hw
            by_cases hif : b1 * b1 - 4 * a1 * c1 = w.discriminant
            · rw [if_pos hif] at hw
              cases hw
              rfl
            · rw [if_neg hif] at hw
              cases htd : tdivP (b1 * b1 - w.discriminant) (4 * a1) with
              | none => rw [htd] at hw; cases hw
              | some c2 =>
                rw [htd] at hw
                simp only [Option.bind_eq_bind, Option.some_bind] at hw
                cases hw
                rfl
        simp only [Option.bind_eq_bind] at h
        cases hg0 : gcdE x.a y.a with
        | none => rw [hg0] at h; cases h
        | some g0 =>
          rw [hg0, Option.some_bind] at h
          cases hg : gcdE g0 ((x.b + y.b).tdiv 2) with
          | none => rw [hg] at h; cases h
          | some g =>
            rw [hg, Option.some_bind] at h
            by_cases hg1 : g = 1
            · rw [if_pos hg1] at h
              cases hc3 : tdivP ((x.b + 2 * y.a * ((y.b - x.b).tdiv 2)) *
                  (x.b + 2 * y.a * ((y.b - x.b).tdiv 2)) - x.discriminant)
                  (4 * (x.a * y.a)) with
              | none => rw [hc3] at h; cases h
              | some c3 =>
                rw [hc3, Option.some_bind] at h
                exact (hred _ _ h).trans rfl
            · rw [if_neg hg1] at h
              cases ha1 : tdivP x.a g with
              | none => rw [ha1] at h; cases h
              | some a1g =>
                rw [ha1, Option.some_bind] at h
                cases ha2 : tdivP y.a g with
                | none => rw [ha2] at h; cases h
                | some a2g =>
                  rw [ha2, Option.some_bind] at h
                  cases hs : tdivP ((x.b + y.b).tdiv 2) g with
                  | none => rw [hs] at h; cases h
                  | some sg =>
                    rw [hs, Option.some_bind] at h
                    cases he : extendedGcdE a1g a2g with
                    | none => rw [he] at h; cases h
                    | some gu =>
                      rw [he, Option.some_bind] at h
                      obtain ⟨g', u, t'⟩ := gu
                      simp only at h
                      cases hb1 : tdivP x.b g with
                      | none => rw [hb1] at h; cases h
                      | some b1g =>
                        rw [hb1, Option.some_bind] at h
                        cases hc3 : tdivP ((x.b + 2 * g * a2g * u * (sg - b1g)) *
                            (x.b + 2 * g * a2g * u * (sg - b1g)) - x.discriminant)
                            (4 * (g * a1g * a2g)) with
                        | none => rw [hc3] at h; cases h
                        | some c3 =>
                          rw [hc3, Option.some_bind] at h
                          exact (hred _ _ h).trans rfl

/-- Composing the identity form on the left returns the other operand (the
`a == 1` short circuit). -/
theorem composeE_identity_left (D : Int) (y : ClassGroupElement)
    (h : y.discriminant = D) : composeE (identityElem D) y = some y := by
  unfold composeE
  rw [show (identityElem D).discriminant = D from rfl, h]
  rw [if_neg (by simp), if_pos (show (identityElem D).a = 1 from rfl)]

/-- The `pow` loop keeps returning the identity when both the accumulator
and the base are the identity form: every compose takes the short
circuit. -/
theorem powLoop_identity : ∀ fuel (exp : Int) (D : Int), 0 ≤ exp → exp < 2 ^ fuel →
    powLoop (fuel + 1) (identityElem D) (identityElem D) exp = some (identityElem D) := by
  intro fuel
  induction fuel with
  | zero =>
    intro exp D h0 h1
    have : exp = 0 := by omega
    subst this
    rfl
  | succ fuel ih =>
    intro exp D h0 h1
    by_cases hz : exp = 0
    · subst hz; rfl
    · show powLoop (fuel + 1 + 1) _ _ _ = _
      unfold powLoop
      rw [if_neg hz]
      simp only []
      have hcomp : composeE (identityElem D) (identityElem D) = some (identityElem D) :=
        composeE_identity_left D (identityElem D) rfl
      have hfd0 : 0 ≤ exp.fdiv 2 := Int.fdiv_nonneg h0 (by norm_num)
      have hfdlt : exp.fdiv 2 < 2 ^ fuel := by
        rw [Int.fdiv_eq_ediv _ (by norm_num)]
        have := Int.ediv_add_emod exp 2
        have h2 := Int.emod_nonneg exp (show (2 : Int) ≠ 0 by norm_num)
        have h3 := Int.emod_lt_of_pos exp (show (0 : Int) < 2 by norm_num)
        have hp : (2 : Int) ^ (fuel + 1) = 2 ^ fuel * 2 := by ring
        omega
      have htail : powLoop (fuel + 1) (identityElem D) (identityElem D) (exp.fdiv 2) =
          some (identityElem D) := ih (exp.fdiv 2) D hfd0 hfdlt
      by_cases hm : exp.tmod 2 = 1
      · rw [if_pos hm, hcomp]
        simp only [Option.bind_eq_bind, Option.some_bind]
        exact htail
      · rw [if_neg hm]
        simp only [Option.bind_eq_bind, Option.pure_def, Option.some_bind]
        rw [hcomp]
        simp only [Option.some_bind]
        exact htail

/-- `pow` of the identity form at any exponent `≥ 2` is the identity. -/
theorem powE_identity (D : Int) (l : Int) (hl : 2 ≤ l) :
    powE (identityElem D) l = some (identityElem D) := by
  unfold powE
  rw [if_neg (by omega), if_neg (by omega)]
  have hfuel : l.natAbs + 2 = (l.natAbs + 1) + 1 := by omega
  rw [show (identityElem D).discriminant = D from rfl, hfuel]
  apply powLoop_identity (l.natAbs + 1) l D (by omega)
  have h1 : l.natAbs < 2 ^ l.natAbs := Nat.lt_two_pow _
  have h2 : (l.natAbs : Int) < (2 : Int) ^ l.natAbs := by exact_mod_cast h1
  have h3 : (2 : Int) ^ l.natAbs ≤ 2 ^ (l.natAbs + 1) := by
    have : (1 : Int) ≤ 2 := by norm_num
    calc (2 : Int) ^ l.natAbs = 2 ^ l.natAbs * 1 := by ring
    _ ≤ 2 ^ l.natAbs * 2 := by
        have : (0 : Int) < 2 ^ l.natAbs := pow_pos (by norm_num) _
        nlinarith
    _ = 2 ^ (l.natAbs + 1) := by ring
  have h4 : l = (l.natAbs : Int) := by omega
  omega

/-- `iterSquare` preserves the stored discriminant. -/
theorem iterSquare_discriminant : ∀ t (x y : ClassGroupElement),
    iterSquare t x = some y → y.discriminant = x.discriminant := by
  intro t
  induction t with
  | zero =>
    intro x y h
    cases h
    rfl
  | succ t ih =>
    intro x y h
    unfold iterSquare at h
    simp only [Option.bind_eq_bind] at h
    cases hs : composeE x x with
    | none => rw [hs] at h; cases h
    | some z =>
      rw [hs, Option.some_bind] at h
      rw [ih z y h, composeE_discriminant x x z hs]

/-- The `pow` loop at a power-of-two exponent replays the squaring chain
of `compute`: the accumulator stays the identity until the final bit, and
one extra squaring of the result is performed before the loop exits. -/
theorem powLoop_two_pow : ∀ t fuel (base y : ClassGroupElement) (D : Int),
    t < fuel → base.discriminant = D → iterSquare t base = some y →
    (squareE y).isSome →
    powLoop (fuel + 1) (identityElem D) base ((2 : Int) ^ t) = some y := by
  intro t
  induction t with
  | zero =>
    intro fuel base y D hf hd hit hsq
    cases hit
    match fuel, hf with
    | fuel + 1, _ =>
      show powLoop (fuel + 1 + 1) _ _ 1 = _
      unfold powLoop
      rw [if_neg (by norm_num)]
      simp only []
      rw [if_pos (show (1 : Int).tmod 2 = 1 from rfl)]
      rw [composeE_identity_left D base hd]
      simp only [Option.bind_eq_bind, Option.some_bind]
      unfold squareE at hsq
      cases hbs : composeE base base with
      | none => rw [hbs] at hsq; cases hsq
      | some b1 =>
        simp only [Option.some_bind]
        rw [show (1 : Int).fdiv 2 = 0 from rfl]
        show powLoop (fuel + 1) base b1 0 = some base
        unfold powLoop
        rw [if_pos rfl]
  | succ t ih =>
    intro fuel base y D hf hd hit hsq
    match fuel, hf with
    | fuel + 1, hf =>
      show powLoop (fuel + 1 + 1) _ _ _ = _
      unfold powLoop
      rw [if_neg (by positivity)]
      simp only []
      have heven : ((2 : Int) ^ (t + 1)).tmod 2 ≠ 1 := by
        rw [show (2 : Int) ^ (t + 1) = 2 * 2 ^ t by ring, Int.mul_tmod_right]
        norm_num
      rw [if_neg heven]
      simp only [Option.bind_eq_bind, Option.pure_def, Option.some_bind]
      unfold iterSquare at hit
      simp only [Option.bind_eq_bind] at hit
      cases hbs : composeE base base with
      | none => rw [hbs] at hit; cases hit
      | some b1 =>
        rw [hbs] at hit
        simp only [Option.some_bind] at hit ⊢
        have hb1d : b1.discriminant = D := by
          rw [composeE_discriminant base base b1 hbs, hd]
        have hshift : ((2 : Int) ^ (t + 1)).fdiv 2 = 2 ^ t := by
          rw [show (2 : Int) ^ (t + 1) = 2 * 2 ^ t by ring,
            Int.mul_fdiv_cancel_left _ (by norm_num)]
        rw [hshift]
        exact ih fuel b1 y D (by omega) hb1d hit hsq

/-- `pow` at exponent `2^t` returns the value of `t` sequential squarings
(the claim-side characterization of `verify`'s `g^r` computation), as long
as one further squaring of the result does not abort. -/
theorem powE_two_pow (t : Nat) (g y : ClassGroupElement)
    (hit : iterSquare t g = some y) (hsq : (squareE y).isSome) :
    powE g ((2 : Int) ^ t) = some y := by
  unfold powE
  by_cases h0 : t = 0
  · subst h0
    cases hit
    rfl
  · rw [if_neg (by positivity), if_neg (by
      intro hcon
      have h1 : (2 : Int) ^ 1 ≤ 2 ^ t := by
        apply pow_le_pow_right₀ (by norm_num)
        omega
      norm_num at h1
      omega)]
    have habs : ((2 : Int) ^ t).natAbs = 2 ^ t := by
      rw [Int.natAbs_pow]
      rfl
    rw [habs, show 2 ^ t + 2 = (2 ^ t + 1) + 1 by omega]
    exact powLoop_two_pow t (2 ^ t + 1) g y g.discriminant
      (by have := Nat.lt_two_pow t; omega) rfl hit hsq

/-! Bounds on the Fiat–Shamir prime. -/

/-- `foldVal` of a list of genuine bytes stays below `(v+1) * 256^len`. -/
theorem foldVal_lt : ∀ (bs : List Nat) (v : Nat), (∀ b ∈ bs, b < 256) →
    foldVal v bs < (v + 1) * 256 ^ bs.length := by
  intro bs
  induction bs with
  | nil => intro v _; simpa [foldVal] using Nat.lt_succ_self v
  | cons b bs ih =>
    intro v hb
    have hb0 : b < 256 := hb b (by simp)
    have := ih (v * 256 + b) (fun x hx => hb x (by simp [hx]))
    calc foldVal v (b :: bs) = foldVal (v * 256 + b) bs := rfl
    _ < (v * 256 + b + 1) * 256 ^ bs.length := this
    _ ≤ ((v + 1) * 256) * 256 ^ bs.length := by
        have : v * 256 + b + 1 ≤ (v + 1) * 256 := by omega
        exact Nat.mul_le_mul_right _ this
    _ = (v + 1) * 256 ^ (b :: bs).length := by
        rw [List.length_cons, pow_succ]
        ring

/-- The value of genuine bytes is below `256^len`. -/
theorem bytesToNatBE_lt (bs : List Nat) (h : ∀ b ∈ bs, b < 256) :
    bytesToNatBE bs < 256 ^ bs.length := by
  have := foldVal_lt bs 0 h
  rw [bytesToNatBE_eq_foldVal]
  omega

/-- Every byte of a SHA-256 digest is a genuine byte. -/
theorem sha256_bytes_lt (msg : List Nat) : ∀ b ∈ sha256 msg, b < 256 := by
  intro b hb
  unfold sha256 at hb
  rw [List.mem_flatMap] at hb
  obtain ⟨w, _, hw⟩ := hb
  have h256 : (0 : Nat) < 256 := by norm_num
  simp only [wordBytes, List.mem_cons, List.not_mem_nil, or_false] at hw
  rcases hw with h | h | h | h
  all_goals (rw [h]; exact Nat.mod_lt _ h256)

/-- One compression step preserves the eight-word state shape. -/
theorem shaBlock_length (st blk : List Nat) (h : st.length = 8) :
    (shaBlock st blk).length = 8 := by
  match st, h with
  | [a, b, c, d, e, f, g, h8], _ =>
    unfold shaBlock
    rcases hr : shaRounds (shaK.zip (shaSchedule (bytesToWords (blk.take 64)))) a b c d e f g h8 with
      ⟨a1, b1, c1, d1, e1, f1, g1, h1⟩
    simp [hr]

/-- The block fold preserves the eight-word state shape. -/
theorem shaBlocks_length : ∀ fuel st bytes, st.length = 8 →
    (shaBlocks fuel st bytes).length = 8 := by
  intro fuel
  induction fuel with
  | zero => intro st bytes h; exact h
  | succ fuel ih =>
    intro st bytes h
    match bytes with
    | [] => exact h
    | x :: rest =>
      show (shaBlocks fuel (shaBlock st ((x :: rest).take 64)) ((x :: rest).drop 64)).length = 8
      exact ih _ _ (shaBlock_length st _ h)

/-- A SHA-256 digest is 32 bytes. -/
theorem sha256_length (msg : List Nat) : (sha256 msg).length = 32 := by
  unfold sha256
  simp only []
  have h8 : (shaBlocks ((shaPad msg).length / 64 + 1) shaH0 (shaPad msg)).length = 8 :=
    shaBlocks_length _ shaH0 (shaPad msg) rfl
  match hst : shaBlocks ((shaPad msg).length / 64 + 1) shaH0 (shaPad msg), h8 with
  | [a, b, c, d, e, f, g, h], _ =>
    rfl

/-- The digest value is below `2^256`. -/
theorem sha256_value_lt (msg : List Nat) : bytesToNatBE (sha256 msg) < 2 ^ 256 := by
  have h := bytesToNatBE_lt (sha256 msg) (sha256_bytes_lt msg)
  rw [sha256_length] at h
  calc bytesToNatBE (sha256 msg) < 256 ^ 32 := h
  _ = 2 ^ 256 := by norm_num

/-- A successful prime search returns a Miller–Rabin-accepted value. -/
theorem hashPrimeLoop_accepts : ∀ fuel p l, hashPrimeLoop fuel p = some l →
    isProbablyPrimeE l = some true := by
  intro fuel
  induction fuel with
  | zero => intro p l h; cases h
  | succ fuel ih =>
    intro p l h
    unfold hashPrimeLoop at h
    simp only [Option.bind_eq_bind] at h
    cases hp : isProbablyPrimeE p with
    | none => rw [hp] at h; cases h
    | some b =>
      rw [hp, Option.some_bind] at h
      cases b with
      | true =>
        simp only [if_true] at h
        cases h
        exact hp
      | false =>
        simp only [if_false, Bool.false_eq_true] at h
        exact ih (p + 2) l h

/-- A successful prime search moves at most two per fuel unit. -/
theorem hashPrimeLoop_le : ∀ fuel p l, hashPrimeLoop fuel p = some l →
    l ≤ p + 2 * fuel := by
  intro fuel
  induction fuel with
  | zero => intro p l h; cases h
  | succ fuel ih =>
    intro p l h
    unfold hashPrimeLoop at h
    simp only [Option.bind_eq_bind] at h
    cases hp : isProbablyPrimeE p with
    | none => rw [hp] at h; cases h
    | some b =>
      rw [hp, Option.some_bind] at h
      cases b with
      | true =>
        simp only [if_true] at h
        cases h
        omega
      | false =>
        simp only [if_false, Bool.false_eq_true] at h
        have := ih (p + 2) l h
        omega

/-- A Miller–Rabin-accepted value is at least two. -/
theorem isProbablyPrimeE_ge_two (n : Int) (h : isProbablyPrimeE n = some true) : 2 ≤ n := by
  unfold isProbablyPrimeE at h
  by_cases hn : n < 2
  · rw [if_pos hn] at h
    cases h
  · omega

/-- The Fiat–Shamir prime is at least two. -/
theorem hashPrimeE_ge_two (data : List Nat) (l : Int) (h : hashPrimeE data = some l) :
    2 ≤ l := by
  unfold hashPrimeE at h
  exact isProbablyPrimeE_ge_two l (hashPrimeLoop_accepts _ _ _ h)

/-- The Fiat–Shamir prime is below `2^257`. -/
theorem hashPrimeE_lt (data : List Nat) (l : Int) (h : hashPrimeE data = some l) :
    l < 2 ^ 257 := by
  unfold hashPrimeE at h
  have hle := hashPrimeLoop_le _ _ _ h
  have hdig : bytesToNatBE (sha256 data) < 2 ^ 256 := sha256_value_lt data
  have hstart : ((bytesToNatBE (sha256 data) : Nat) : Int) < (2 : Int) ^ 256 := by
    exact_mod_cast hdig
  by_cases hm : ((bytesToNatBE (sha256 data) : Nat) : Int).tmod 2 = 0
  · rw [if_pos hm] at hle
    have : (2 : Int) ^ 257 = 2 ^ 256 + 2 ^ 256 := by ring
    omega
  · rw [if_neg hm] at hle
    have : (2 : Int) ^ 257 = 2 ^ 256 + 2 ^ 256 := by ring
    omega


/-! The wire format of `generate_proof` when the quotient is zero, and the
matching run of `verify`'s parser.  These drive claim C2. -/

/-- Bound on the byte length of a big-endian magnitude. -/
theorem natBytesAux_length_le : ∀ fuel k n, n < 256 ^ k →
    (natBytesAux fuel n []).length ≤ k := by
  intro fuel
  induction fuel with
  | zero => intro k n _; exact Nat.zero_le k
  | succ fuel ih =>
    intro k n h
    by_cases h0 : n = 0
    · subst h0
      rw [show natBytesAux (fuel + 1) 0 [] = [] from rfl]
      exact Nat.zero_le k
    · have hk : k ≠ 0 := by
        intro hk0
        subst hk0
        rw [pow_zero] at h
        omega
      rw [show natBytesAux (fuel + 1) n [] =
          if n = 0 then [] else natBytesAux fuel (n / 256) [n % 256] from rfl, if_neg h0]
      rw [natBytesAux_append fuel (n / 256) [n % 256], List.length_append]
      have h256 : 256 ^ k = 256 ^ (k - 1) * 256 := by
        rw [← pow_succ]
        congr 1
        omega
      have hdiv : n / 256 < 256 ^ (k - 1) := by
        rw [h256] at h
        omega
      have := ih (k - 1) (n / 256) hdiv
      simp only [List.length_cons, List.length_nil]
      omega

/-- `natBytesBE` of a value below `256^k` has at most `k` bytes. -/
theorem natBytesBE_length_le (n k : Nat) (hk : 1 ≤ k) (h : n < 256 ^ k) :
    (natBytesBE n).length ≤ k := by
  unfold natBytesBE
  by_cases h0 : n = 0
  · rw [if_pos h0]
    simp only [List.length_cons, List.length_nil]
    omega
  · rw [if_neg h0]
    exact natBytesAux_length_le (n + 1) k n h

/-- Every number is below two to its bit length, fuel-level version. -/
theorem lt_two_pow_natBitsAux : ∀ fuel n, n < 2 ^ fuel → n < 2 ^ natBitsAux fuel n := by
  intro fuel
  induction fuel with
  | zero =>
    intro n h
    rw [pow_zero] at h
    rw [show natBitsAux 0 n = 0 from rfl, pow_zero]
    omega
  | succ fuel ih =>
    intro n h
    by_cases h0 : n = 0
    · subst h0
      rw [show natBitsAux (fuel + 1) 0 = 0 from rfl]
      norm_num
    · rw [show natBitsAux (fuel + 1) n =
          if n = 0 then 0 else natBitsAux fuel (n / 2) + 1 from rfl, if_neg h0]
      have hdiv : n / 2 < 2 ^ fuel := by
        have hp : (2 : Nat) ^ (fuel + 1) = 2 ^ fuel * 2 := by rw [pow_succ]
        omega
      have hih := ih (n / 2) hdiv
      have hp2 : (2 : Nat) ^ (natBitsAux fuel (n / 2) + 1) =
          2 ^ natBitsAux fuel (n / 2) * 2 := by rw [pow_succ]
      omega

/-- Every number is below two to its bit length. -/
theorem lt_two_pow_natBits (n : Nat) : n < 2 ^ natBits n :=
  lt_two_pow_natBitsAux (n + 1) n (by
    have h1 := Nat.lt_two_pow n
    have h2 : (2 : Nat) ^ n ≤ 2 ^ (n + 1) := Nat.pow_le_pow_right (by norm_num) (by omega)
    omega)

/-- From the `bits()` bound of `generate_discriminant` to a magnitude
bound. -/
theorem natAbs_lt_of_intBits_le (v : Int) (k : Nat) (h : intBits v ≤ k) :
    v.natAbs < 2 ^ k := by
  have h1 := lt_two_pow_natBits v.natAbs
  have h2 : (2 : Nat) ^ natBits v.natAbs ≤ 2 ^ k := Nat.pow_le_pow_right (by norm_num) h
  omega

/-- When `2^T` is below the Fiat–Shamir prime the quotient is zero, the
proof element is the identity (`g^0`), and the proof bytes are fully
explicit: `serialize(identity) ‖ 1 ‖ 0 ‖ len(r) ‖ r` with `r = 2^T`. -/
theorem generateProof_q0 (v : WesolowskiVDF) (y : ClassGroupElement) (t : Nat) (l : Int)
    (hl : hashPrimeE (serializeElem v.generator ++ serializeElem y) = some l)
    (ht : (2 : Int) ^ t < l)
    (hr32 : (natBytesBE ((2 : Int) ^ t).natAbs).length < 2 ^ 32) :
    generateProof v y t = some (serializeElem (identityElem v.generator.discriminant) ++
      u32be 1 ++ [0] ++ u32be (natBytesBE ((2 : Int) ^ t).natAbs).length ++
      natBytesBE ((2 : Int) ^ t).natAbs) := by
  have hl2 : 2 ≤ l := hashPrimeE_ge_two _ l hl
  have ht0 : (0 : Int) ≤ 2 ^ t := by positivity
  unfold generateProof
  rw [hl]
  simp only [Option.bind_eq_bind, Option.some_bind]
  rw [show tdivP ((2 : Int) ^ t) l = some 0 by
    unfold tdivP
    rw [if_neg (by omega), Int.tdiv_eq_zero_of_lt ht0 ht]]
  simp only [Option.some_bind]
  rw [show tmodP ((2 : Int) ^ t) l = some ((2 : Int) ^ t) by
    unfold tmodP
    rw [if_neg (by omega), Int.tmod_eq_of_lt ht0 ht]]
  simp only [Option.some_bind]
  rw [if_neg (by simp)]
  rw [show powE v.generator 0 = some (identityElem v.generator.discriminant) from rfl]
  simp only [Option.bind_eq_bind, Option.some_bind]
  rw [show natBytesBE ((0 : Int)).natAbs = [0] from rfl]
  rw [show (([0] : List Nat)).length % 2 ^ 32 = 1 by norm_num]
  rw [Nat.mod_eq_of_lt hr32]
  rfl

/-- Parsing the `q = 0` wire format recovers the identity element, a zero
quotient and the remainder `2^T`. -/
theorem parsePhase_q0 (d : Int) (t : Nat)
    (hc32 : (natBytesBE ((identityElem d).c.natAbs)).length < 2 ^ 32)
    (hr32 : (natBytesBE ((2 : Int) ^ t).natAbs).length < 2 ^ 32) :
    parsePhase (serializeElem (identityElem d) ++ u32be 1 ++ [0] ++
      u32be (natBytesBE ((2 : Int) ^ t).natAbs).length ++
      natBytesBE ((2 : Int) ^ t).natAbs) d = some (identityElem d, 0, (2 : Int) ^ t) := by
  have hlena : (natBytesBE ((identityElem d).a.natAbs)).length = 1 := by
    show (natBytesBE ((1 : Int).natAbs)).length = 1
    rfl
  have hlenb : (natBytesBE ((identityElem d).b.natAbs)).length = 1 := by
    show (natBytesBE ((1 : Int).natAbs)).length = 1
    rfl
  have hassoc : serializeElem (identityElem d) ++ u32be 1 ++ [0] ++
      u32be (natBytesBE ((2 : Int) ^ t).natAbs).length ++
      natBytesBE ((2 : Int) ^ t).natAbs =
      serializeElem (identityElem d) ++ (u32be 1 ++ ([0] ++
        (u32be (natBytesBE ((2 : Int) ^ t).natAbs).length ++
         natBytesBE ((2 : Int) ^ t).natAbs))) := by
    simp only [List.append_assoc]
  have hdes : deserializeElem (serializeElem (identityElem d) ++ u32be 1 ++ [0] ++
      u32be (natBytesBE ((2 : Int) ^ t).natAbs).length ++
      natBytesBE ((2 : Int) ^ t).natAbs) d = some (identityElem d) := by
    rw [hassoc]
    have h := deserializeElem_serializeElem (identityElem d)
      (u32be 1 ++ ([0] ++ (u32be (natBytesBE ((2 : Int) ^ t).natAbs).length ++
        natBytesBE ((2 : Int) ^ t).natAbs))) d
      (by rw [hlena]; norm_num) (by rw [hlenb]; norm_num) hc32
    exact h.trans (by
      rw [show (⟨(identityElem d).a, (identityElem d).b, (identityElem d).c, d⟩ :
        ClassGroupElement) = identityElem d from rfl])
  have hgea := serializeInt_length_ge (identityElem d).a
  have hgeb := serializeInt_length_ge (identityElem d).b
  have hgec := serializeInt_length_ge (identityElem d).c
  have hPlen : (serializeElem (identityElem d)).length =
      (serializeInt (identityElem d).a).length + (serializeInt (identityElem d).b).length +
        (serializeInt (identityElem d).c).length := by
    simp only [serializeElem, List.length_append]
  have hrbpos : 1 ≤ (natBytesBE ((2 : Int) ^ t).natAbs).length := by
    have := natBytesBE_ne_nil ((2 : Int) ^ t).natAbs
    have := List.length_pos.mpr this
    omega
  have hlenB : (serializeElem (identityElem d) ++ u32be 1 ++ [0] ++
      u32be (natBytesBE ((2 : Int) ^ t).natAbs).length ++
      natBytesBE ((2 : Int) ^ t).natAbs).length =
      (serializeElem (identityElem d)).length + 9 +
        (natBytesBE ((2 : Int) ^ t).natAbs).length := by
    simp only [List.length_append, u32be_length, List.length_cons, List.length_nil]
  have hd0 : (serializeElem (identityElem d) ++ u32be 1 ++ [0] ++
      u32be (natBytesBE ((2 : Int) ^ t).natAbs).length ++
      natBytesBE ((2 : Int) ^ t).natAbs).drop (serializeElem (identityElem d)).length =
      u32be 1 ++ ([0] ++ (u32be (natBytesBE ((2 : Int) ^ t).natAbs).length ++
        natBytesBE ((2 : Int) ^ t).natAbs)) := by
    rw [hassoc]
    exact List.drop_left _ _
  have htk0 : (u32be 1 ++ ([0] ++ (u32be (natBytesBE ((2 : Int) ^ t).natAbs).length ++
      natBytesBE ((2 : Int) ^ t).natAbs))).take 4 = u32be 1 := by
    rw [show (4 : Nat) = (u32be 1).length from rfl]
    exact List.take_left _ _
  have hd1 : (serializeElem (identityElem d) ++ u32be 1 ++ [0] ++
      u32be (natBytesBE ((2 : Int) ^ t).natAbs).length ++
      natBytesBE ((2 : Int) ^ t).natAbs).drop ((serializeElem (identityElem d)).length + 4) =
      [0] ++ (u32be (natBytesBE ((2 : Int) ^ t).natAbs).length ++
        natBytesBE ((2 : Int) ^ t).natAbs) := by
    rw [← List.drop_drop, hd0, show (4 : Nat) = (u32be 1).length from rfl]
    exact List.drop_left _ _
  have hd2 : (serializeElem (identityElem d) ++ u32be 1 ++ [0] ++
      u32be (natBytesBE ((2 : Int) ^ t).natAbs).length ++
      natBytesBE ((2 : Int) ^ t).natAbs).drop
        ((serializeElem (identityElem d)).length + 4 + 1) =
      u32be (natBytesBE ((2 : Int) ^ t).natAbs).length ++
        natBytesBE ((2 : Int) ^ t).natAbs := by
    rw [← List.drop_drop, hd1]
    rfl
  have htk2 : (u32be (natBytesBE ((2 : Int) ^ t).natAbs).length ++
      natBytesBE ((2 : Int) ^ t).natAbs).take 4 =
      u32be (natBytesBE ((2 : Int) ^ t).natAbs).length := by
    rw [show (4 : Nat) = (u32be (natBytesBE ((2 : Int) ^ t).natAbs).length).length from rfl]
    exact List.take_left _ _
  have hd3 : (serializeElem (identityElem d) ++ u32be 1 ++ [0] ++
      u32be (natBytesBE ((2 : Int) ^ t).natAbs).length ++
      natBytesBE ((2 : Int) ^ t).natAbs).drop
        ((serializeElem (identityElem d)).length + 4 + 1 + 4) =
      natBytesBE ((2 : Int) ^ t).natAbs := by
    rw [← List.drop_drop, hd2,
      show (4 : Nat) = (u32be (natBytesBE ((2 : Int) ^ t).natAbs).length).length from rfl]
    exact List.drop_left _ _
  have htk1 : (([0] ++ (u32be (natBytesBE ((2 : Int) ^ t).natAbs).length ++
      natBytesBE ((2 : Int) ^ t).natAbs)).take 1) = [0] := rfl
  have hq0 : ((bytesToNatBE [0] : Nat) : Int) = 0 := rfl
  unfold parsePhase
  rw [if_neg (by omega)]
  rw [hdes]
  simp only [Option.bind_eq_bind, Option.some_bind]
  rw [if_neg (by omega)]
  rw [hd0, htk0, bytesToNatBE_u32be 1 (by norm_num)]
  rw [if_neg (by omega)]
  rw [hd1]
  rw [htk1, hq0]
  rw [if_neg (by omega)]
  rw [show (serializeElem (identityElem d)).length + 4 + 1 =
      (serializeElem (identityElem d)).length + 4 + 1 from rfl]
  rw [hd2, htk2, bytesToNatBE_u32be _ hr32]
  rw [if_neg (by omega)]
  rw [hd3, List.take_length]
  rw [bytesToNatBE_natBytesBE]
  rw [Int.natAbs_of_nonneg (by positivity)]


/-- The full wire format of `generate_proof`, for any quotient: the
Fiat–Shamir division identity holds (the `assert_eq!` passed) and the
proof bytes are `serialize(π) ‖ len(q) ‖ q ‖ len(r) ‖ r`. -/
theorem generateProof_wire (v : WesolowskiVDF) (y : ClassGroupElement) (t : Nat)
    (l q r : Int) (e : ClassGroupElement) (prf : List Nat)
    (hl : hashPrimeE (serializeElem v.generator ++ serializeElem y) = some l)
    (hq : tdivP ((2 : Int) ^ t) l = some q)
    (hr : tmodP ((2 : Int) ^ t) l = some r)
    (he : powE v.generator q = some e)
    (hgp : generateProof v y t = some prf) :
    l * q + r = 2 ^ t ∧
    prf = serializeElem e ++ u32be ((natBytesBE q.natAbs).length % 2 ^ 32) ++
      natBytesBE q.natAbs ++ u32be ((natBytesBE r.natAbs).length % 2 ^ 32) ++
      natBytesBE r.natAbs := by
  unfold generateProof at hgp
  rw [hl] at hgp
  simp only [Option.bind_eq_bind, Option.some_bind] at hgp
  rw [hq] at hgp
  simp only [Option.some_bind] at hgp
  rw [hr] at hgp
  simp only [Option.some_bind] at hgp
  by_cases hass : l * q + r ≠ (2 : Int) ^ t
  · rw [if_pos hass] at hgp
    cases hgp
  · rw [if_neg hass] at hgp
    rw [he] at hgp
    simp only [Option.bind_eq_bind, Option.some_bind, Option.pure_def] at hgp
    push_neg at hass
    exact ⟨hass, (Option.some_inj.mp hgp).symm⟩

/-- Parsing the full wire format (for any quotient) recovers the proof
element's components and the transmitted nonnegative `q` and `r`, as long
as no length prefix was truncated by the `as u32` cast. -/
theorem parsePhase_wire (d : Int) (e : ClassGroupElement) (q r : Int)
    (hq0 : 0 ≤ q) (hr0 : 0 ≤ r)
    (ha32 : (natBytesBE e.a.natAbs).length < 2 ^ 32)
    (hb32 : (natBytesBE e.b.natAbs).length < 2 ^ 32)
    (hc32 : (natBytesBE e.c.natAbs).length < 2 ^ 32)
    (hq32 : (natBytesBE q.natAbs).length < 2 ^ 32)
    (hr32 : (natBytesBE r.natAbs).length < 2 ^ 32) :
    parsePhase (serializeElem e ++ u32be (natBytesBE q.natAbs).length ++
      natBytesBE q.natAbs ++ u32be (natBytesBE r.natAbs).length ++
      natBytesBE r.natAbs) d = some (⟨e.a, e.b, e.c, d⟩, q, r) := by
  have hassoc : serializeElem e ++ u32be (natBytesBE q.natAbs).length ++
      natBytesBE q.natAbs ++ u32be (natBytesBE r.natAbs).length ++
      natBytesBE r.natAbs =
      serializeElem e ++ (u32be (natBytesBE q.natAbs).length ++
        (natBytesBE q.natAbs ++ (u32be (natBytesBE r.natAbs).length ++
         natBytesBE r.natAbs))) := by
    simp only [List.append_assoc]
  have hdes : deserializeElem (serializeElem e ++ u32be (natBytesBE q.natAbs).length ++
      natBytesBE q.natAbs ++ u32be (natBytesBE r.natAbs).length ++
      natBytesBE r.natAbs) d = some ⟨e.a, e.b, e.c, d⟩ := by
    rw [hassoc]
    exact deserializeElem_serializeElem e
      (u32be (natBytesBE q.natAbs).length ++ (natBytesBE q.natAbs ++
        (u32be (natBytesBE r.natAbs).length ++ natBytesBE r.natAbs))) d ha32 hb32 hc32
  have hserEq : serializeElem (⟨e.a, e.b, e.c, d⟩ : ClassGroupElement) = serializeElem e := rfl
  have hgea := serializeInt_length_ge e.a
  have hgeb := serializeInt_length_ge e.b
  have hgec := serializeInt_length_ge e.c
  have hPlen : (serializeElem e).length =
      (serializeInt e.a).length + (serializeInt e.b).length +
        (serializeInt e.c).length := by
    simp only [serializeElem, List.length_append]
  have hqbpos : 1 ≤ (natBytesBE q.natAbs).length := by
    have := natBytesBE_ne_nil q.natAbs
    have := List.length_pos.mpr this
    omega
  have hrbpos : 1 ≤ (natBytesBE r.natAbs).length := by
    have := natBytesBE_ne_nil r.natAbs
    have := List.length_pos.mpr this
    omega
  have hlenB : (serializeElem e ++ u32be (natBytesBE q.natAbs).length ++
      natBytesBE q.natAbs ++ u32be (natBytesBE r.natAbs).length ++
      natBytesBE r.natAbs).length =
      (serializeElem e).length + 8 + (natBytesBE q.natAbs).length +
        (natBytesBE r.natAbs).length := by
    simp only [List.length_append, u32be_length]
    omega
  have hd0 : (serializeElem e ++ u32be (natBytesBE q.natAbs).length ++
      natBytesBE q.natAbs ++ u32be (natBytesBE r.natAbs).length ++
      natBytesBE r.natAbs).drop (serializeElem e).length =
      u32be (natBytesBE q.natAbs).length ++ (natBytesBE q.natAbs ++
        (u32be (natBytesBE r.natAbs).length ++ natBytesBE r.natAbs)) := by
    rw [hassoc]
    exact List.drop_left _ _
  have htk0 : (u32be (natBytesBE q.natAbs).length ++ (natBytesBE q.natAbs ++
      (u32be (natBytesBE r.natAbs).length ++ natBytesBE r.natAbs))).take 4 =
      u32be (natBytesBE q.natAbs).length := by
    rw [show (4 : Nat) = (u32be (natBytesBE q.natAbs).length).length from rfl]
    exact List.take_left _ _
  have hd1 : (serializeElem e ++ u32be (natBytesBE q.natAbs).length ++
      natBytesBE q.natAbs ++ u32be (natBytesBE r.natAbs).length ++
      natBytesBE r.natAbs).drop ((serializeElem e).length + 4) =
      natBytesBE q.natAbs ++ (u32be (natBytesBE r.natAbs).length ++
        natBytesBE r.natAbs) := by
    rw [← List.drop_drop, hd0, show (4 : Nat) = (u32be (natBytesBE q.natAbs).length).length
      from rfl]
    exact List.drop_left _ _
  have htk1 : (natBytesBE q.natAbs ++ (u32be (natBytesBE r.natAbs).length ++
      natBytesBE r.natAbs)).take (natBytesBE q.natAbs).length = natBytesBE q.natAbs :=
    List.take_left _ _
  have hd2 : (serializeElem e ++ u32be (natBytesBE q.natAbs).length ++
      natBytesBE q.natAbs ++ u32be (natBytesBE r.natAbs).length ++
      natBytesBE r.natAbs).drop
        ((serializeElem e).length + 4 + (natBytesBE q.natAbs).length) =
      u32be (natBytesBE r.natAbs).length ++ natBytesBE r.natAbs := by
    rw [← List.drop_drop, hd1]
    exact List.drop_left _ _
  have htk2 : (u32be (natBytesBE r.natAbs).length ++ natBytesBE r.natAbs).take 4 =
      u32be (natBytesBE r.natAbs).length := by
    rw [show (4 : Nat) = (u32be (natBytesBE r.natAbs).length).length from rfl]
    exact List.take_left _ _
  have hd3 : (serializeElem e ++ u32be (natBytesBE q.natAbs).length ++
      natBytesBE q.natAbs ++ u32be (natBytesBE r.natAbs).length ++
      natBytesBE r.natAbs).drop
        ((serializeElem e).length + 4 + (natBytesBE q.natAbs).length + 4) =
      natBytesBE r.natAbs := by
    rw [← List.drop_drop, hd2, show (4 : Nat) = (u32be (natBytesBE r.natAbs).length).length
      from rfl]
    exact List.drop_left _ _
  unfold parsePhase
  rw [if_neg (by omega)]
  rw [hdes]
  simp only [Option.bind_eq_bind, Option.some_bind]
  rw [hserEq]
  rw [if_neg (by omega)]
  rw [hd0, htk0, bytesToNatBE_u32be _ hq32]
  rw [if_neg (by omega)]
  rw [hd1, htk1, bytesToNatBE_natBytesBE, Int.natAbs_of_nonneg hq0]
  rw [if_neg (by omega)]
  rw [hd2, htk2, bytesToNatBE_u32be _ hr32]
  rw [if_neg (by omega)]
  rw [hd3, List.take_length, bytesToNatBE_natBytesBE, Int.natAbs_of_nonneg hr0]

/-- Claim C2, amended.  Let `(y, proof) = compute(T)` with Fiat–Shamir
prime `l`, quotient `q`, remainder `r` and proof element `π`, and suppose
no component of the wire format is long enough for the `as u32` length
cast to truncate (the boundary claim C6 exhibits).  Then: (i) for every
`T`, calling `verify` with `T + 1` instead of `T` returns `false` — the
transmitted pair satisfies `l·q + r = 2^T`, so it can never match the
pair recomputed for `2^(T+1)` and the sanity check fires; (ii) for every
`T`, replacing `y` by any `y'` whose recomputed quotient/remainder pair
differs from the transmitted one (the spec's "overwhelming probability"
case) is rejected; (iii) when `2^T < l` (the quotient-zero regime),
replacing `y` by any distinct `y'` whatsoever is rejected.  The claim's
bit-flipping half is refuted by the counterexample: flipping a bit of a
sign byte inside the proof bytes is not detected. -/
theorem c2_tamper_amended (ch : List Nat) (v : WesolowskiVDF) (t : Nat)
    (y : ClassGroupElement) (prf : List Nat) (l q r : Int) (e : ClassGroupElement)
    (hv : vdfNew ch = some v)
    (hc : computeVDF v t = some (y, prf))
    (hl : hashPrimeE (serializeElem v.generator ++ serializeElem y) = some l)
    (hq : tdivP ((2 : Int) ^ t) l = some q)
    (hr : tmodP ((2 : Int) ^ t) l = some r)
    (he : powE v.generator q = some e)
    (ha32 : (natBytesBE e.a.natAbs).length < 2 ^ 32)
    (hb32 : (natBytesBE e.b.natAbs).length < 2 ^ 32)
    (hc32 : (natBytesBE e.c.natAbs).length < 2 ^ 32)
    (hq32 : (natBytesBE q.natAbs).length < 2 ^ 32) :
    verifyVDF v y prf (t + 1) = some false ∧
    (∀ y' l', hashPrimeE (serializeElem v.generator ++ serializeElem y') = some l' →
      (q ≠ ((2 : Int) ^ t).tdiv l' ∨ r ≠ ((2 : Int) ^ t).tmod l') →
      verifyVDF v y' prf t = some false) ∧
    (∀ y' l', y' ≠ y →
      hashPrimeE (serializeElem v.generator ++ serializeElem y') = some l' →
      (2 : Int) ^ t < l → (squareE y).isSome → verifyVDF v y' prf t = some false) := by
  have hl2 : 2 ≤ l := hashPrimeE_ge_two _ l hl
  have hllt : l < 2 ^ 257 := hashPrimeE_lt _ l hl
  have hqval : q = ((2 : Int) ^ t).tdiv l := by
    unfold tdivP at hq
    rw [if_neg (by omega)] at hq
    exact (Option.some_inj.mp hq).symm
  have hrval : r = ((2 : Int) ^ t).tmod l := by
    unfold tmodP at hr
    rw [if_neg (by omega)] at hr
    exact (Option.some_inj.mp hr).symm
  have hq0 : 0 ≤ q := by
    rw [hqval]
    exact Int.tdiv_nonneg (by positivity) (by omega)
  have hr0 : 0 ≤ r := by
    rw [hrval]
    exact Int.tmod_nonneg l (by positivity)
  have hrlt : r < l := by
    rw [hrval]
    exact Int.tmod_lt_of_pos _ (by omega)
  have hr32 : (natBytesBE r.natAbs).length < 2 ^ 32 := by
    have hrabs : r.natAbs < 2 ^ 257 := by omega
    have hlt : r.natAbs < 256 ^ 33 := by
      have h1 : (2 : Nat) ^ 257 ≤ 2 ^ 264 := Nat.pow_le_pow_right (by norm_num) (by norm_num)
      have h2 : (256 : Nat) ^ 33 = 2 ^ 264 := by norm_num
      omega
    have h5 := natBytesBE_length_le r.natAbs 33 (by norm_num) hlt
    have h32 : (33 : Nat) < 2 ^ 32 := by norm_num
    omega
  obtain ⟨hit, hgp⟩ : iterSquare t v.generator = some y ∧ generateProof v y t = some prf := by
    unfold computeVDF at hc
    simp only [Option.bind_eq_bind] at hc
    cases hi : iterSquare t v.generator with
    | none => rw [hi] at hc; cases hc
    | some y0 =>
      rw [hi, Option.some_bind] at hc
      cases hg : generateProof v y0 t with
      | none => rw [hg] at hc; cases hc
      | some prf0 =>
        rw [hg, Option.some_bind] at hc
        simp only [Option.pure_def] at hc
        have hpair := Option.some_inj.mp hc
        have hy : y0 = y := congrArg Prod.fst hpair
        have hp : prf0 = prf := congrArg Prod.snd hpair
        subst hy
        subst hp
        exact ⟨rfl, hg⟩
  obtain ⟨hqr, hprf⟩ := generateProof_wire v y t l q r e prf hl hq hr he hgp
  rw [Nat.mod_eq_of_lt hq32, Nat.mod_eq_of_lt hr32] at hprf
  have hparse : parsePhase prf v.discriminant = some (⟨e.a, e.b, e.c, v.discriminant⟩, q, r) := by
    rw [hprf]
    exact parsePhase_wire v.discriminant e q r hq0 hr0 ha32 hb32 hc32 hq32 hr32
  have hgen : ∀ (t' : Nat) (y' : ClassGroupElement) (l' : Int),
      hashPrimeE (serializeElem v.generator ++ serializeElem y') = some l' →
      (q ≠ ((2 : Int) ^ t').tdiv l' ∨ r ≠ ((2 : Int) ^ t').tmod l') →
      verifyVDF v y' prf t' = some false := by
    intro t' y' l' hl' hmis
    have hl2' : 2 ≤ l' := hashPrimeE_ge_two _ l' hl'
    unfold verifyVDF
    rw [hparse]
    rw [hl']
    simp only [Option.bind_eq_bind, Option.some_bind]
    rw [show tdivP ((2 : Int) ^ t') l' = some (((2 : Int) ^ t').tdiv l') by
      unfold tdivP
      rw [if_neg (by omega)]]
    simp only [Option.some_bind]
    rw [show tmodP ((2 : Int) ^ t') l' = some (((2 : Int) ^ t').tmod l') by
      unfold tmodP
      rw [if_neg (by omega)]]
    simp only [Option.some_bind]
    rw [if_pos hmis]
  refine ⟨?_, ?_, ?_⟩
  · refine hgen (t + 1) y l hl ?_
    by_contra hcon
    push_neg at hcon
    obtain ⟨hq', hr'⟩ := hcon
    have h1 := Int.tdiv_add_tmod ((2 : Int) ^ (t + 1)) l
    rw [← hq', ← hr'] at h1
    have hp : (2 : Int) ^ (t + 1) = 2 * 2 ^ t := by ring
    have hpos : (0 : Int) < 2 ^ t := by positivity
    omega
  · intro y' l' hl' hmis
    exact hgen t y' l' hl' hmis
  · intro y' l' hne hl' ht hsq
    have hqz : q = 0 := by
      rw [hqval]
      exact Int.tdiv_eq_zero_of_lt (by positivity) ht
    have hrz : r = (2 : Int) ^ t := by
      rw [hrval]
      exact Int.tmod_eq_of_lt (by positivity) ht
    have hl2' : 2 ≤ l' := hashPrimeE_ge_two _ l' hl'
    by_cases hcase : (2 : Int) ^ t < l'
    · obtain ⟨d0, hgd, hveq⟩ : ∃ d0, generateDiscriminant ch 1024 = some d0 ∧
          v = ⟨generatorElem d0, d0⟩ := by
        unfold vdfNew at hv
        simp only [Option.bind_eq_bind] at hv
        cases hgd : generateDiscriminant ch 1024 with
        | none => rw [hgd] at hv; cases hv
        | some d0 =>
          rw [hgd, Option.some_bind] at hv
          simp only [Option.pure_def] at hv
          exact ⟨d0, rfl, (Option.some_inj.mp hv).symm⟩
      have hveqg : v.generator = generatorElem d0 := by rw [hveq]
      have hveqd : v.discriminant = d0 := by rw [hveq]
      have hgd0 : v.generator.discriminant = d0 := by
        rw [hveqg]
        rfl
      have hyd : y.discriminant = d0 := by
        rw [iterSquare_discriminant t v.generator y hit, hveqg]
        rfl
      have heid : e = identityElem d0 := by
        rw [hqz] at he
        rw [show powE v.generator 0 = some (identityElem v.generator.discriminant) from rfl,
          hgd0] at he
        exact (Option.some_inj.mp he).symm
      have hparse' : parsePhase prf v.discriminant =
          some (identityElem d0, 0, (2 : Int) ^ t) := by
        rw [hparse, heid, hqz, hrz, hveqd]
        rfl
      unfold verifyVDF
      rw [hparse']
      rw [hl']
      simp only [Option.bind_eq_bind, Option.some_bind]
      rw [show tdivP ((2 : Int) ^ t) l' = some 0 by
        unfold tdivP
        rw [if_neg (by omega), Int.tdiv_eq_zero_of_lt (by positivity) hcase]]
      simp only [Option.some_bind]
      rw [show tmodP ((2 : Int) ^ t) l' = some ((2 : Int) ^ t) by
        unfold tmodP
        rw [if_neg (by omega), Int.tmod_eq_of_lt (by positivity) hcase]]
      simp only [Option.some_bind]
      rw [if_neg (by push_neg; exact ⟨rfl, rfl⟩)]
      rw [powE_identity d0 l' hl2']
      simp only [Option.some_bind]
      rw [hveqg] at hit ⊢
      rw [powE_two_pow t (generatorElem d0) y hit hsq]
      simp only [Option.some_bind]
      rw [composeE_identity_left d0 y hyd]
      simp only [Option.some_bind]
      rw [decide_eq_false (fun hcon => hne (by rw [hcon]))]
    · push_neg at hcase
      refine hgen t y' l' hl' (Or.inl ?_)
      rw [hqz]
      have h1 : (1 : Int) ≤ ((2 : Int) ^ t).tdiv l' := by
        rw [Int.tdiv_eq_ediv (by positivity) (by omega)]
        rw [Int.le_ediv_iff_mul_le (by omega)]
        omega
      omega

/-! Concrete protocol instance for the claim-level witnesses: the challenge
`"test"`, its 1024-bit discriminant, and the proof bytes of `compute(0)`. -/

/-- The challenge bytes of the ASCII string `test`. -/
def seedTest : List Nat := [116, 101, 115, 116]

/-- The discriminant `generate_discriminant("test", 1024)` derives. -/
def dTest : Int := -153837780428183493338637405191031442682025447709174892782613120426366918012789199097567595086154269312912263946958478665821234002649451597936373644923624212904867386813681607698103862305267249756369683343938486027206961828008051826859353424285994057915301834368780299687210031527118631556075900910054246160635

/-- The VDF instance `new("test")` builds. -/
def vTest : WesolowskiVDF := ⟨generatorElem dTest, dTest⟩

/-- The Fiat–Shamir prime of the pair `(g, g)` — the `T = 0` output is the
generator itself. -/
def lTest : Int := 2237162880031195178989493530239530445106397199201689533674346733563692772087

/-- The Fiat–Shamir prime of the pair `(g, identity)`. -/
def lTest2 : Int := 65932942144686077613711586938009598226818307264959656608130228416508032003917

/-- The proof bytes `compute(0)` emits: `serialize(identity)` (three
length–sign–magnitude blocks), then `q = 0` and `r = 1`, length-prefixed. -/
def prfTest : List Nat :=
  [0, 0, 0, 1, 0, 1, 0, 0, 0, 1, 0, 1, 0, 0, 0, 128, 0, 54, 196, 160, 23, 51, 13, 136, 23,
   255, 57, 254, 186, 94, 224, 219, 36, 212, 15, 231, 247, 1, 52, 116, 57, 148, 180, 63,
   143, 134, 163, 121, 70, 227, 5, 193, 35, 120, 93, 221, 18, 115, 204, 255, 75, 54, 131,
   205, 102, 154, 233, 14, 193, 114, 246, 107, 117, 207, 84, 11, 93, 57, 29, 23, 86, 161,
   129, 209, 207, 244, 88, 134, 164, 51, 184, 179, 12, 65, 24, 64, 200, 244, 18, 42, 2,
   118, 124, 108, 93, 46, 98, 227, 148, 43, 67, 242, 198, 94, 85, 52, 224, 98, 222, 161,
   245, 151, 78, 60, 132, 72, 236, 240, 127, 197, 31, 153, 24, 198, 251, 103, 107, 47,
   178, 130, 201, 248, 173, 230, 63, 0, 0, 0, 1, 0, 0, 0, 0, 1, 1]

/-- A crafted proof byte string that parses cleanly: three zero-valued
one-byte blocks (the zero form), `q = 0` and `r = 1`. -/
def prf9 : List Nat :=
  [0, 0, 0, 1, 0, 0, 0, 0, 0, 1, 0, 0, 0, 0, 0, 1, 0, 0, 0, 0, 0, 1, 0, 0, 0, 0, 1, 1]

set_option maxRecDepth 4000000 in
set_option maxHeartbeats 1600000000 in
/-- Claim C2, witness: on the `"test"` instance at `T = 0`, replacing the
output by the (distinct) identity element is rejected, and verifying at
`T + 1 = 1` is rejected. -/
theorem c2_tamper_witness :
    verifyVDF vTest (identityElem dTest) prfTest 0 = some false ∧
    verifyVDF vTest (generatorElem dTest) prfTest 1 = some false := by
  have h := c2_tamper_amended seedTest vTest 0 (generatorElem dTest) prfTest lTest 0 1
    (identityElem dTest) (by decide) (by decide) (by decide) (by decide) (by decide)
    (by decide) (by decide) (by decide) (by decide) (by decide)
  exact ⟨h.2.2 (identityElem dTest) lTest2 (by decide) (by decide) (by decide) (by decide),
    h.1⟩

set_option maxRecDepth 4000000 in
set_option maxHeartbeats 1600000000 in
/-- Claim C2, counterexample: flipping bit 1 of byte 4 of the proof bytes
of `compute(0)` — the sign byte of the `a`-block of `π`, `0 → 2` — yields a
different proof byte string that `verify` still accepts, because any sign
flag other than `1` decodes as `Plus`: single-bit tampering inside `π`'s
components is not detected. -/
theorem c2_tamper_counterexample :
    vdfNew seedTest = some vTest ∧
    computeVDF vTest 0 = some (generatorElem dTest, prfTest) ∧
    prfTest.set 4 2 ≠ prfTest ∧
    verifyVDF vTest (generatorElem dTest) (prfTest.set 4 2) 0 = some true := by
  refine ⟨by decide, by decide, by decide, by decide⟩

set_option maxRecDepth 4000000 in
set_option maxHeartbeats 1600000000 in
/-- Claim C9, counterexample: a proof byte string whose parse phase
succeeds (so the malformed-input guard does not fire), on which `verify`
aborts — the embedded `none`, the division by zero Rust panics on inside
`compose` of the parsed zero form — instead of returning a boolean:
`verify` can panic, refuting the "never panics" half of the claim. -/
theorem c9_panic_counterexample :
    vdfNew seedTest = some vTest ∧
    (parsePhase prf9 vTest.discriminant).isSome = true ∧
    verifyVDF vTest (generatorElem dTest) prf9 0 = none := by
  refine ⟨by decide, by decide, by decide⟩

end VdfScaffold
